import Mathlib

/-!
Verification of the whalebase-translations pipeline: key generation
(`src/keyGen.js`), locale tree edits and cache diffing (`src/locales.js`), and
the batched translator (`src/translator.js`).

JavaScript strings are embedded as `List Char`; JSON-like values (string leaves
and insertion-ordered objects) as the inductive `JVal`; JS objects as
association lists with JS assignment semantics (`objSet`: update in place,
else append).
-/

namespace WhalebaseTranslations

/-- A JSON-like value as manipulated by the pipeline: a string leaf or an
object, modelled as an insertion-ordered association list, matching JS object
enumeration order. -/
inductive JVal where
  | str : List Char → JVal
  | obj : List (List Char × JVal) → JVal

/-- Entry list of a JS object whose values are `JVal`s. -/
abbrev JEntries := List (List Char × JVal)

/-- JS property read `o[k]` on an association list. -/
def objGet (k : List Char) : List (List Char × α) → Option α
  | [] => none
  | (k', v) :: rest => if k' = k then some v else objGet k rest

/-- JS property write `o[k] = v`: an existing key keeps its slot and gets the
new value; a fresh key is appended (JS insertion order). -/
def objSet (k : List Char) (v : α) : List (List Char × α) → List (List Char × α)
  | [] => [(k, v)]
  | (k', v') :: rest => if k' = k then (k, v) :: rest else (k', v') :: objSet k v rest

/-- JS `delete o[k]`: removes the binding of `k`, if any. -/
def objDelete (k : List Char) : List (List Char × α) → List (List Char × α)
  | [] => []
  | (k', v') :: rest => if k' = k then rest else (k', v') :: objDelete k rest

/-- JS `dotKey.split(".")`. -/
def splitDots (k : List Char) : List (List Char) := k.splitOn '.'

/-- The synthetic child key `_value` used by the demotion rule of
`flatToNested` (keyGen.js line 87). -/
def valueKey : List Char := "_value".toList

/-- Walk of `setNestedKey` (locales.js lines 55-65) over the split key: for
each intermediate segment, if the current slot is missing or not an object it
is replaced by a fresh empty object (`if (!current[k] || typeof current[k] !==
'object') current[k] = {}`); the final segment is assigned `v`. -/
def setNestedKeyGo (v : JVal) : List (List Char) → JEntries → JEntries
  | [], es => es
  | [last], es => objSet last v es
  | k :: k2 :: rest, es =>
      let sub : JEntries :=
        match objGet k es with
        | some (.obj s) => s
        | _ => []
      objSet k (.obj (setNestedKeyGo v (k2 :: rest) sub)) es

/-- `setNestedKey(obj, dotKey, value)` from locales.js lines 55-65. -/
def setNestedKey (es : JEntries) (dotKey : List Char) (v : JVal) : JEntries :=
  setNestedKeyGo v (splitDots dotKey) es

/-- Walk of `removeNestedKey` (locales.js lines 41-50): if any intermediate
segment is missing or not an object the function returns with no change;
otherwise the final segment is deleted from its parent. -/
def removeNestedKeyGo : List (List Char) → JEntries → JEntries
  | [], es => es
  | [last], es => objDelete last es
  | k :: k2 :: rest, es =>
      match objGet k es with
      | some (.obj s) => objSet k (.obj (removeNestedKeyGo (k2 :: rest) s)) es
      | _ => es

/-- `removeNestedKey(obj, dotKey)` from locales.js lines 41-50. -/
def removeNestedKey (es : JEntries) (dotKey : List Char) : JEntries :=
  removeNestedKeyGo (splitDots dotKey) es

/-- Per-entry insertion of `flatToNested` (keyGen.js lines 79-97): walks the
split key; an intermediate slot holding a string is demoted to `{_value: s}`
before descending, a missing or non-object slot becomes `{}`; the final
segment is assigned the string value. -/
def insertDotKeyGo (v : List Char) : List (List Char) → JEntries → JEntries
  | [], es => es
  | [last], es => objSet last (.str v) es
  | k :: k2 :: rest, es =>
      let sub : JEntries :=
        match objGet k es with
        | some (.str s) => [(valueKey, .str s)]
        | some (.obj s) => s
        | none => []
      objSet k (.obj (insertDotKeyGo v (k2 :: rest) sub)) es

/-- Entry list built by `flatToNested(flat)` (keyGen.js lines 76-100). -/
def flatToNestedEntries (flat : List (List Char × List Char)) : JEntries :=
  flat.foldl (fun es e => insertDotKeyGo e.2 (splitDots e.1) es) []

/-- `flatToNested(flat)` from keyGen.js lines 76-100. -/
def flatToNested (flat : List (List Char × List Char)) : JVal :=
  .obj (flatToNestedEntries flat)

/-- The walk of `removeNestedKey` fails: walking the parent path of the split
key, some intermediate segment is missing from the current object or bound to
a non-object value. -/
def parentWalkFails : List (List Char) → JEntries → Bool
  | [], _ => false
  | [_], _ => false
  | k :: k2 :: rest, es =>
      match objGet k es with
      | some (.obj s) => parentWalkFails (k2 :: rest) s
      | _ => true

theorem objSet_objGet_self {k : List Char} {v : α} :
    ∀ {es : List (List Char × α)}, objGet k es = some v → objSet k v es = es := by
  intro es h
  induction es with
  | nil => simp [objGet] at h
  | cons e rest ih =>
      obtain ⟨k', v'⟩ := e
      by_cases hk : k' = k
      · subst hk
        simp [objGet] at h
        simp [objSet, h]
      · simp [objGet, hk] at h
        simp [objSet, hk, ih h]

theorem removeNestedKeyGo_noop :
    ∀ (segs : List (List Char)) (es : JEntries),
      parentWalkFails segs es = true → removeNestedKeyGo segs es = es := by
  intro segs
  induction segs with
  | nil => intro es h; simp [parentWalkFails] at h
  | cons k tail ih =>
      intro es h
      match tail with
      | [] => simp [parentWalkFails] at h
      | k2 :: rest =>
          rw [parentWalkFails] at h
          rw [removeNestedKeyGo]
          cases hg : objGet k es with
          | none => rfl
          | some v =>
              cases v with
              | str s => rfl
              | obj s =>
                  rw [hg] at h
                  show objSet k (JVal.obj (removeNestedKeyGo (k2 :: rest) s)) es = es
                  rw [ih s h]
                  exact objSet_objGet_self hg

-- ── C1 ──

/-- C1 counterexample: starting from an empty tree, `setNestedKey(tree, "a",
"x")` then `setNestedKey(tree, "a.b", "y")` does not yield
`{a: {_value: "x", b: "y"}}` — the code of `setNestedKey` replaces the string
intermediate with a fresh empty object instead of demoting it. -/
theorem c1_setNestedKey_no_demotion :
    setNestedKey (setNestedKey [] "a".toList (JVal.str "x".toList)) "a.b".toList
        (JVal.str "y".toList)
      ≠ [("a".toList, JVal.obj [(valueKey, JVal.str "x".toList),
          ("b".toList, JVal.str "y".toList)])] := by
  intro h
  have h' : [("a".toList, JVal.obj [("b".toList, JVal.str "y".toList)])]
      = [("a".toList, JVal.obj [(valueKey, JVal.str "x".toList),
          ("b".toList, JVal.str "y".toList)])] := h
  simp [valueKey] at h'

/-- C1 amended: `setNestedKey` does not apply the demotion-to-`_value` rule of
`flatToNested`; an intermediate slot holding a string is replaced by a fresh
empty object, discarding the earlier leaf. Calling `setNestedKey(tree, "a",
"x")` and then `setNestedKey(tree, "a.b", "y")` on an empty tree yields
`{a: {b: "y"}}`, with the earlier string leaf `"x"` dropped. -/
theorem c1_setNestedKey_discards_string_leaf :
    setNestedKey (setNestedKey [] "a".toList (JVal.str "x".toList)) "a.b".toList
        (JVal.str "y".toList)
      = [("a".toList, JVal.obj [("b".toList, JVal.str "y".toList)])] := rfl

-- ── C10 ──

/-- C10: for every nested tree and every dotted key some intermediate segment
of which is missing from the tree or bound to a non-object value (the parent
walk fails), `removeNestedKey` leaves the tree exactly unchanged: deleting an
absent key is a silent no-op. -/
theorem c10_removeNestedKey_noop (es : JEntries) (dotKey : List Char)
    (h : parentWalkFails (splitDots dotKey) es = true) :
    removeNestedKey es dotKey = es :=
  removeNestedKeyGo_noop (splitDots dotKey) es h

/-- C10 witness: deleting `"b.c"` from the tree `{a: "x"}`, whose intermediate
segment `"b"` is absent, leaves the tree unchanged. -/
theorem c10_removeNestedKey_noop_witness :
    parentWalkFails (splitDots "b.c".toList) [("a".toList, JVal.str "x".toList)] = true
      ∧ removeNestedKey [("a".toList, JVal.str "x".toList)] "b.c".toList
        = [("a".toList, JVal.str "x".toList)] :=
  ⟨rfl, c10_removeNestedKey_noop [("a".toList, JVal.str "x".toList)] "b.c".toList rfl⟩

-- ── Cache diff (locales.js / cache module, `diffFlatMaps`) ──

/-- A flat map: dotted-key string to source string, insertion ordered. -/
abbrev FlatMap := List (List Char × List Char)

/-- First loop of `diffFlatMaps` (lines 106-112): iterate the entries of
`current`; a key absent from `cached` goes to `added`, a key present with a
strictly different value goes to `changed`. -/
def diffFlatMapsLoop1 : FlatMap → FlatMap → FlatMap → FlatMap → FlatMap × FlatMap
  | [], _, added, changed => (added, changed)
  | e :: rest, cached, added, changed =>
      match objGet e.1 cached with
      | none => diffFlatMapsLoop1 rest cached (objSet e.1 e.2 added) changed
      | some w =>
          if w ≠ e.2 then diffFlatMapsLoop1 rest cached added (objSet e.1 e.2 changed)
          else diffFlatMapsLoop1 rest cached added changed

/-- Second loop of `diffFlatMaps` (lines 114-118): keys of `cached` absent
from `current` are pushed onto `removed`. -/
def diffFlatMapsLoop2 : FlatMap → FlatMap → List (List Char) → List (List Char)
  | [], _, removed => removed
  | e :: rest, current, removed =>
      match objGet e.1 current with
      | none => diffFlatMapsLoop2 rest current (removed ++ [e.1])
      | some _ => diffFlatMapsLoop2 rest current removed

/-- `diffFlatMaps(current, cached)` from the cache module (lines 101-121),
returning `(added, changed, removed)`. -/
def diffFlatMaps (current cached : FlatMap) : FlatMap × FlatMap × List (List Char) :=
  let ac := diffFlatMapsLoop1 current cached [] []
  (ac.1, ac.2, diffFlatMapsLoop2 cached current [])

theorem objGet_objSet_self (k : List Char) (v : α) (es : List (List Char × α)) :
    objGet k (objSet k v es) = some v := by
  induction es with
  | nil => simp [objGet, objSet]
  | cons e rest ih =>
      obtain ⟨k', v'⟩ := e
      by_cases hk : k' = k
      · simp [objSet, hk, objGet]
      · simp [objSet, hk, objGet, ih]

theorem objGet_objSet_ne {k k' : List Char} (h : k' ≠ k) (v : α)
    (es : List (List Char × α)) : objGet k (objSet k' v es) = objGet k es := by
  induction es with
  | nil => simp [objGet, objSet, h]
  | cons e rest ih =>
      obtain ⟨k'', v''⟩ := e
      by_cases hk : k'' = k'
      · subst hk
        simp [objSet, objGet, h]
      · simp [objSet, hk, objGet, ih]

theorem mem_of_objGet_eq_some {k : List Char} {v : α} :
    ∀ {es : List (List Char × α)}, objGet k es = some v → (k, v) ∈ es := by
  intro es h
  induction es with
  | nil => simp [objGet] at h
  | cons e rest ih =>
      obtain ⟨k', v'⟩ := e
      by_cases hk : k' = k
      · subst hk
        simp [objGet] at h
        simp [h]
      · simp [objGet, hk] at h
        exact List.mem_cons_of_mem _ (ih h)

theorem objGet_eq_some_of_mem_nodup {k : List Char} {v : α} :
    ∀ {es : List (List Char × α)}, (es.map Prod.fst).Nodup → (k, v) ∈ es →
      objGet k es = some v := by
  intro es hnd hmem
  induction es with
  | nil => simp at hmem
  | cons e rest ih =>
      obtain ⟨k', v'⟩ := e
      simp only [List.map_cons, List.nodup_cons] at hnd
      rcases List.mem_cons.mp hmem with heq | hrest
      · obtain ⟨hk, hv⟩ := Prod.mk.injEq .. ▸ heq
        simp [objGet, hk.symm, hv]
      · have hk : k' ≠ k := by
          intro hkk
          exact hnd.1 (hkk ▸ (List.mem_map_of_mem Prod.fst hrest))
        simp [objGet, hk, ih hnd.2 hrest]

theorem objGet_isSome_iff_mem_keys {k : List Char} {es : List (List Char × α)} :
    (∃ v, objGet k es = some v) ↔ k ∈ es.map Prod.fst := by
  constructor
  · rintro ⟨v, hv⟩
    exact List.mem_map_of_mem Prod.fst (mem_of_objGet_eq_some hv)
  · intro hk
    induction es with
    | nil => simp at hk
    | cons e rest ih =>
        obtain ⟨k', v'⟩ := e
        by_cases heq : k' = k
        · exact ⟨v', by simp [objGet, heq]⟩
        · simp only [List.map_cons, List.mem_cons] at hk
          rcases hk with h | h
          · exact absurd h.symm heq
          · obtain ⟨v, hv⟩ := ih h
            exact ⟨v, by simp [objGet, heq, hv]⟩

theorem diffFlatMapsLoop1_fst (cached : FlatMap) :
    ∀ (current added changed : FlatMap) (k : List Char),
      (current.map Prod.fst).Nodup →
      objGet k (diffFlatMapsLoop1 current cached added changed).1 =
        match objGet k current with
        | some v =>
            (match objGet k cached with
             | none => some v
             | some _ => objGet k added)
        | none => objGet k added := by
  intro current
  induction current with
  | nil => intro added changed k _; simp [diffFlatMapsLoop1, objGet]
  | cons e rest ih =>
      intro added changed k hnd
      obtain ⟨ke, ve⟩ := e
      simp only [List.map_cons, List.nodup_cons] at hnd
      rw [diffFlatMapsLoop1]
      by_cases hk : ke = k
      · subst hk
        have hrest : objGet ke rest = none := by
          cases hg : objGet ke rest with
          | none => rfl
          | some w =>
              exact absurd (List.mem_map_of_mem Prod.fst (mem_of_objGet_eq_some hg))
                hnd.1
        have hcons : objGet ke ((ke, ve) :: rest) = some ve := by simp [objGet]
        cases hc : objGet ke cached with
        | none =>
            simp only
            rw [ih _ _ _ hnd.2, hrest, hcons]
            simp [objGet_objSet_self]
        | some w =>
            simp only
            rcases eq_or_ne w ve with hv | hv
            · rw [if_neg (by simp [hv]), ih _ _ _ hnd.2, hrest, hcons]
            · rw [if_pos hv, ih _ _ _ hnd.2, hrest, hcons]
      · have hcons : objGet k ((ke, ve) :: rest) = objGet k rest := by
          simp [objGet, hk]
        cases hc : objGet ke cached with
        | none =>
            simp only
            rw [ih _ _ _ hnd.2, hcons, objGet_objSet_ne hk]
        | some w =>
            simp only
            rcases eq_or_ne w ve with hv | hv
            · rw [if_neg (by simp [hv]), ih _ _ _ hnd.2, hcons]
            · rw [if_pos hv, ih _ _ _ hnd.2, hcons]

theorem diffFlatMapsLoop1_snd (cached : FlatMap) :
    ∀ (current added changed : FlatMap) (k : List Char),
      (current.map Prod.fst).Nodup →
      objGet k (diffFlatMapsLoop1 current cached added changed).2 =
        match objGet k current, objGet k cached with
        | some v, some w => if w ≠ v then some v else objGet k changed
        | _, _ => objGet k changed := by
  intro current
  induction current with
  | nil =>
      intro added changed k _
      simp only [diffFlatMapsLoop1, objGet]
  | cons e rest ih =>
      intro added changed k hnd
      obtain ⟨ke, ve⟩ := e
      simp only [List.map_cons, List.nodup_cons] at hnd
      rw [diffFlatMapsLoop1]
      by_cases hk : ke = k
      · subst hk
        have hrest : objGet ke rest = none := by
          cases hg : objGet ke rest with
          | none => rfl
          | some w =>
              exact absurd (List.mem_map_of_mem Prod.fst (mem_of_objGet_eq_some hg))
                hnd.1
        have hcons : objGet ke ((ke, ve) :: rest) = some ve := by simp [objGet]
        cases hc : objGet ke cached with
        | none =>
            simp only
            rw [ih _ _ _ hnd.2, hrest, hcons]
        | some w =>
            simp only
            rcases eq_or_ne w ve with hv | hv
            · rw [if_neg (by simp [hv]), ih _ _ _ hnd.2, hrest, hcons]
              simp [hv]
            · rw [if_pos hv, ih _ _ _ hnd.2, hrest, hcons]
              simp [hv, objGet_objSet_self]
      · have hcons : objGet k ((ke, ve) :: rest) = objGet k rest := by
          simp [objGet, hk]
        cases hc : objGet ke cached with
        | none =>
            simp only
            rw [ih _ _ _ hnd.2, hcons]
        | some w =>
            simp only
            rcases eq_or_ne w ve with hv | hv
            · rw [if_neg (by simp [hv]), ih _ _ _ hnd.2, hcons]
            · rw [if_pos hv, ih _ _ _ hnd.2, hcons, objGet_objSet_ne hk]

theorem diffFlatMapsLoop2_mem (current : FlatMap) :
    ∀ (cached : FlatMap) (removed : List (List Char)) (k : List Char),
      k ∈ diffFlatMapsLoop2 cached current removed ↔
        k ∈ removed ∨ (k ∈ cached.map Prod.fst ∧ objGet k current = none) := by
  intro cached
  induction cached with
  | nil => intro removed k; simp [diffFlatMapsLoop2]
  | cons e rest ih =>
      intro removed k
      obtain ⟨ke, ve⟩ := e
      rw [diffFlatMapsLoop2]
      cases hc : objGet ke current with
      | none =>
          simp only
          rw [ih]
          by_cases hk : k = ke
          · subst hk
            simp [hc, List.mem_append]
          · simp [List.mem_append, hk]
      | some w =>
          simp only
          rw [ih]
          by_cases hk : k = ke
          · subst hk
            simp [hc]
          · simp [hk]

theorem diffFlatMapsLoop1_self (m : FlatMap) :
    ∀ (sub added changed : FlatMap), (∀ e ∈ sub, objGet e.1 m = some e.2) →
      diffFlatMapsLoop1 sub m added changed = (added, changed) := by
  intro sub
  induction sub with
  | nil => intro added changed _; rfl
  | cons e rest ih =>
      intro added changed h
      obtain ⟨ke, ve⟩ := e
      rw [diffFlatMapsLoop1]
      rw [h (ke, ve) (List.mem_cons_self _ _)]
      simp only
      rw [if_neg (by simp)]
      exact ih _ _ (fun e he => h e (List.mem_cons_of_mem _ he))

theorem diffFlatMapsLoop2_self (m : FlatMap) :
    ∀ (sub : FlatMap) (removed : List (List Char)),
      (∀ e ∈ sub, ∃ w, objGet e.1 m = some w) →
      diffFlatMapsLoop2 sub m removed = removed := by
  intro sub
  induction sub with
  | nil => intro removed _; rfl
  | cons e rest ih =>
      intro removed h
      obtain ⟨ke, ve⟩ := e
      rw [diffFlatMapsLoop2]
      obtain ⟨w, hw⟩ := h (ke, ve) (List.mem_cons_self _ _)
      rw [hw]
      exact ih _ (fun e he => h e (List.mem_cons_of_mem _ he))

-- ── C3 ──

/-- C3: `diffFlatMaps(current, cached)` classifies keys exactly: `added`
holds the entries of `current` whose keys are absent from `cached`, `changed`
the entries of `current` present in `cached` with a strictly different value,
and `removed` the keys of `cached` absent from `current`; a key present in
both maps with an identical value appears in none of the three, and diffing a
flat map against itself yields empty `added`, `changed` and `removed`. -/
theorem c3_diffFlatMaps_correct (current cached : FlatMap)
    (hc : (current.map Prod.fst).Nodup) (hd : (cached.map Prod.fst).Nodup) :
    (∀ k, objGet k (diffFlatMaps current cached).1 =
        match objGet k cached with
        | none => objGet k current
        | some _ => none)
    ∧ (∀ k, objGet k (diffFlatMaps current cached).2.1 =
        match objGet k current, objGet k cached with
        | some v, some w => if w ≠ v then some v else none
        | _, _ => none)
    ∧ (∀ k, k ∈ (diffFlatMaps current cached).2.2 ↔
        k ∈ cached.map Prod.fst ∧ objGet k current = none)
    ∧ (∀ k v, objGet k current = some v → objGet k cached = some v →
        objGet k (diffFlatMaps current cached).1 = none
          ∧ objGet k (diffFlatMaps current cached).2.1 = none
          ∧ k ∉ (diffFlatMaps current cached).2.2)
    ∧ diffFlatMaps current current = ([], [], []) := by
  refine ⟨?_, ?_, ?_, ?_, ?_⟩
  · intro k
    show objGet k (diffFlatMapsLoop1 current cached [] []).1 = _
    rw [diffFlatMapsLoop1_fst cached current [] [] k hc]
    cases objGet k current <;> cases objGet k cached <;> simp [objGet]
  · intro k
    show objGet k (diffFlatMapsLoop1 current cached [] []).2 = _
    rw [diffFlatMapsLoop1_snd cached current [] [] k hc]
    cases objGet k current <;> cases objGet k cached <;> simp [objGet]
  · intro k
    show k ∈ diffFlatMapsLoop2 cached current [] ↔ _
    rw [diffFlatMapsLoop2_mem current cached [] k]
    simp
  · intro k v hcur hcad
    refine ⟨?_, ?_, ?_⟩
    · show objGet k (diffFlatMapsLoop1 current cached [] []).1 = none
      rw [diffFlatMapsLoop1_fst cached current [] [] k hc, hcur, hcad]
      simp [objGet]
    · show objGet k (diffFlatMapsLoop1 current cached [] []).2 = none
      rw [diffFlatMapsLoop1_snd cached current [] [] k hc, hcur, hcad]
      simp [objGet]
    · show ¬k ∈ diffFlatMapsLoop2 cached current []
      rw [diffFlatMapsLoop2_mem current cached [] k]
      simp [hcur]
  · have h1 : diffFlatMapsLoop1 current current [] [] = ([], []) :=
      diffFlatMapsLoop1_self current current [] []
        (fun e he => objGet_eq_some_of_mem_nodup hc he)
    have h2 : diffFlatMapsLoop2 current current [] = [] :=
      diffFlatMapsLoop2_self current current []
        (fun e he => ⟨e.2, objGet_eq_some_of_mem_nodup hc he⟩)
    show (let ac := diffFlatMapsLoop1 current current [] [];
          (ac.1, ac.2, diffFlatMapsLoop2 current current [])) = ([], [], [])
    rw [h1, h2]

/-- C3 witness: for current `{a: "1", b: "2"}` and cached `{a: "1", c: "3"}`,
the diff marks `b` as added. -/
theorem c3_diffFlatMaps_correct_witness :
    objGet "b".toList
      (diffFlatMaps [("a".toList, "1".toList), ("b".toList, "2".toList)]
        [("a".toList, "1".toList), ("c".toList, "3".toList)]).1
      = some "2".toList := by
  have h := c3_diffFlatMaps_correct
    [("a".toList, "1".toList), ("b".toList, "2".toList)]
    [("a".toList, "1".toList), ("c".toList, "3".toList)]
    (by decide) (by decide)
  rw [h.1 "b".toList]
  rfl

-- ── Key generator (keyGen.js) ──

/-- The `"unknown"` fallback of `nameToKey` (keyGen.js line 21). -/
def unknownKey : List Char := "unknown".toList

/-- The `"text"` fallback of `textToKey` (keyGen.js line 29). -/
def textKey : List Char := "text".toList

/-- Whitespace as matched by the `\s` class and by `trim()`. -/
def isWsChar (c : Char) : Bool := c.isWhitespace

/-- JS `String.prototype.trim()`: strip whitespace at both ends. -/
def jsTrim (l : List Char) : List Char :=
  ((l.dropWhile isWsChar).reverse.dropWhile isWsChar).reverse

/-- `replace(/[^a-z0-9\s]/g, ' ')`: any character outside `[a-z0-9\s]`
becomes a space. -/
def sanitizeChar (c : Char) : Char :=
  if ('a' ≤ c ∧ c ≤ 'z') ∨ ('0' ≤ c ∧ c ≤ '9') ∨ isWsChar c = true then c else ' '

/-- `replace(/\s+/g, '_')`: each maximal whitespace run becomes one `'_'`.
The flag records whether the previous character was inside a whitespace run. -/
def collapseWsAux : Bool → List Char → List Char
  | _, [] => []
  | afterWs, c :: rest =>
      if isWsChar c then
        (if afterWs then [] else ['_']) ++ collapseWsAux true rest
      else c :: collapseWsAux false rest

/-- `replace(/^_+|_+$/g, '')`: strip leading and trailing underscores. -/
def trimUnderscores (l : List Char) : List Char :=
  ((l.dropWhile (· = '_')).reverse.dropWhile (· = '_')).reverse

/-- The normalization pipeline of `nameToKey` (keyGen.js lines 14-20), before
the `|| 'unknown'` fallback: lowercase, trim, replace specials by spaces,
collapse whitespace runs to `'_'`, strip edge underscores, truncate to 40. -/
def normalizeName (name : List Char) : List Char :=
  (trimUnderscores (collapseWsAux false
    ((jsTrim (name.map Char.toLower)).map sanitizeChar))).take 40

/-- `nameToKey(name)` from keyGen.js lines 13-22. -/
def nameToKey (name : List Char) : List Char :=
  let r := normalizeName name
  if r = [] then unknownKey else r

/-- `text.split('\n')[0].trim().substring(0, 50)` from keyGen.js line 28. -/
def firstLineOf (text : List Char) : List Char :=
  (jsTrim (text.takeWhile (fun c => c ≠ '\n'))).take 50

/-- `textToKey(text)` from keyGen.js lines 27-30. -/
def textToKey (text : List Char) : List Char :=
  let r := nameToKey (firstLineOf text)
  if r = [] then textKey else r

/-- `pathToPrefix(path)` from keyGen.js lines 36-42: last 4 segments,
normalized, with `'unknown'`/empty dropped, joined with dots. -/
def pathToPrefix (path : List (List Char)) : List Char :=
  List.intercalate ['.']
    (((path.drop (path.length - 4)).map nameToKey).filter
      (fun k => k ≠ unknownKey ∧ 0 < k.length))

/-- Decimal digits of `n + 1`-ish values with explicit fuel so that the
definition is structurally recursive; `natToChars` below supplies enough
fuel. -/
def natToCharsGo : Nat → Nat → List Char
  | 0, _ => []
  | _ + 1, 0 => []
  | fuel + 1, n + 1 => natToCharsGo fuel ((n + 1) / 10) ++ [Nat.digitChar ((n + 1) % 10)]

/-- JS number-to-string conversion `${count}` for a natural number: decimal
digits, most significant first. -/
def natToChars (n : Nat) : List Char :=
  if n = 0 then ['0'] else natToCharsGo n n

/-- A Figma text node as consumed by `buildFlatMap`: its text content and the
ancestor-name path. -/
structure TextNode where
  text : List Char
  path : List (List Char)

/-- The base key `prefix ? prefix + "." + leaf : leaf` computed for one node
(keyGen.js lines 53-55). -/
def nodeKey (n : TextNode) : List Char :=
  let pfx := pathToPrefix n.path
  let leaf := textToKey n.text
  if pfx = [] then leaf else pfx ++ '.' :: leaf

/-- The loop of `buildFlatMap` (keyGen.js lines 52-67): `used` maps each base
key to the number of times it has been produced; a repeated base key is
suffixed with `_count`. -/
def buildFlatMapGo : List TextNode → List (List Char × Nat) → FlatMap → FlatMap
  | [], _, flat => flat
  | n :: rest, used, flat =>
      let key := nodeKey n
      match objGet key used with
      | some c =>
          let key2 := key ++ '_' :: natToChars (c + 1)
          buildFlatMapGo rest (objSet key (c + 1) used) (objSet key2 n.text flat)
      | none => buildFlatMapGo rest (objSet key 1 used) (objSet key n.text flat)

/-- `buildFlatMap(textNodes)` from keyGen.js lines 48-70. -/
def buildFlatMap (nodes : List TextNode) : FlatMap := buildFlatMapGo nodes [] []

theorem textToKey_sanity : textToKey "Get Started".toList = "get_started".toList := by decide

theorem textToKey_sanity_symbols : textToKey "!!!".toList = "unknown".toList := by decide

theorem nameToKey_sanity : nameToKey "  Héllo  World ".toList = "h_llo_world".toList := by decide

theorem pathToPrefix_sanity :
    pathToPrefix ["Header".toList, "Navigation".toList] = "header.navigation".toList := by decide

theorem natToChars_sanity : natToChars 12 = ['1', '2'] := by decide

-- ── C7 ──

/-- C7 counterexample: the empty text has an empty normalized first line, yet
`textToKey` returns `"unknown"`, not the claimed placeholder `"text"`: the
`|| 'text'` fallback is unreachable because `nameToKey` already substitutes
`"unknown"` for an empty result. -/
theorem c7_empty_text_not_text_placeholder :
    normalizeName (firstLineOf []) = [] ∧ textToKey [] ≠ textKey := by decide

/-- C7 amended: a text whose first line normalizes to the empty token
degrades to the placeholder key `"unknown"` (never `"text"`), and that
placeholder is subject to the usual collision numbering: two such texts with
empty paths produce the keys `unknown` and `unknown_2` in input order. -/
theorem c7_textToKey_unknown_placeholder (t1 t2 : List Char)
    (h1 : normalizeName (firstLineOf t1) = [])
    (h2 : normalizeName (firstLineOf t2) = []) :
    textToKey t1 = unknownKey
    ∧ buildFlatMap [⟨t1, []⟩, ⟨t2, []⟩]
        = [(unknownKey, t1), (unknownKey ++ '_' :: natToChars 2, t2)] := by
  have hune : unknownKey ≠ [] := by decide
  have httk : ∀ t : List Char, normalizeName (firstLineOf t) = [] →
      textToKey t = unknownKey := by
    intro t h
    show (let r := nameToKey (firstLineOf t); if r = [] then textKey else r) = unknownKey
    have hn : nameToKey (firstLineOf t) = unknownKey := by
      show (let r := normalizeName (firstLineOf t); if r = [] then unknownKey else r)
        = unknownKey
      rw [h]
      rfl
    simp only [hn]
    rw [if_neg hune]
  have ht1 := httk t1 h1
  have ht2 := httk t2 h2
  have hpp : pathToPrefix [] = [] := by decide
  have hnk1 : nodeKey ⟨t1, []⟩ = unknownKey := by
    simp [nodeKey, hpp, ht1]
  have hnk2 : nodeKey ⟨t2, []⟩ = unknownKey := by
    simp [nodeKey, hpp, ht2]
  refine ⟨ht1, ?_⟩
  have hne2 : unknownKey ≠ unknownKey ++ '_' :: natToChars 2 := by decide
  rw [buildFlatMap, buildFlatMapGo]
  simp only [hnk1]
  have hg0 : objGet unknownKey ([] : List (List Char × Nat)) = none := rfl
  rw [hg0]
  simp only
  rw [buildFlatMapGo]
  simp only [hnk2]
  have hg1 : objGet unknownKey (objSet unknownKey 1 ([] : List (List Char × Nat)))
      = some 1 := rfl
  rw [hg1]
  simp only
  rw [buildFlatMapGo]
  show objSet (unknownKey ++ '_' :: natToChars 2) t2 (objSet unknownKey t1 [])
      = [(unknownKey, t1), (unknownKey ++ '_' :: natToChars 2, t2)]
  simp [objSet, hne2, hne2.symm]

/-- C7 witness: `"!!!"` and `"??"` both normalize to the empty token; the
first gets the key `unknown`, the second `unknown_2`. -/
theorem c7_textToKey_unknown_placeholder_witness :
    normalizeName (firstLineOf "!!!".toList) = []
    ∧ buildFlatMap [⟨"!!!".toList, []⟩, ⟨"??".toList, []⟩]
        = [(unknownKey, "!!!".toList), (unknownKey ++ '_' :: natToChars 2, "??".toList)] :=
  ⟨by decide,
    (c7_textToKey_unknown_placeholder "!!!".toList "??".toList (by decide) (by decide)).2⟩

-- ── Decimal rendering lemmas ──

theorem natToCharsGo_zero (f : Nat) : natToCharsGo f 0 = [] := by cases f <;> rfl

theorem natToCharsGo_fuel (n : Nat) :
    ∀ f1 f2, n ≤ f1 → n ≤ f2 → natToCharsGo f1 n = natToCharsGo f2 n := by
  induction n using Nat.strong_induction_on with
  | _ n ih =>
      intro f1 f2 h1 h2
      cases n with
      | zero => rw [natToCharsGo_zero, natToCharsGo_zero]
      | succ m =>
          cases f1 with
          | zero => omega
          | succ g1 =>
              cases f2 with
              | zero => omega
              | succ g2 =>
                  rw [natToCharsGo, natToCharsGo]
                  have hd : (m + 1) / 10 < m + 1 :=
                    Nat.div_lt_self (Nat.succ_pos m) (by norm_num)
                  rw [ih _ hd g1 g2 (by omega) (by omega)]

theorem natToCharsGo_ne_nil (n f : Nat) (hn : 1 ≤ n) (hf : n ≤ f) :
    natToCharsGo f n ≠ [] := by
  cases n with
  | zero => omega
  | succ m =>
      cases f with
      | zero => omega
      | succ g =>
          rw [natToCharsGo]
          simp

theorem natToChars_ne_nil (n : Nat) : natToChars n ≠ [] := by
  rw [natToChars]
  by_cases h : n = 0
  · simp [h]
  · rw [if_neg h]
    exact natToCharsGo_ne_nil n n (by omega) le_rfl

theorem mem_natToCharsGo (n : Nat) :
    ∀ f, n ≤ f → ∀ c ∈ natToCharsGo f n, ∃ d, d < 10 ∧ c = Nat.digitChar d := by
  induction n using Nat.strong_induction_on with
  | _ n ih =>
      intro f hf c hc
      cases n with
      | zero => rw [natToCharsGo_zero] at hc; simp at hc
      | succ m =>
          cases f with
          | zero => omega
          | succ g =>
              rw [natToCharsGo] at hc
              rcases List.mem_append.mp hc with h | h
              · have hd : (m + 1) / 10 < m + 1 :=
                  Nat.div_lt_self (Nat.succ_pos m) (by norm_num)
                exact ih _ hd g (by omega) c h
              · simp at h
                exact ⟨(m + 1) % 10, Nat.mod_lt _ (by norm_num), h⟩

theorem natToChars_no_underscore (n : Nat) : '_' ∉ natToChars n := by
  rw [natToChars]
  by_cases h : n = 0
  · simp [h]
  · rw [if_neg h]
    intro hmem
    obtain ⟨d, hd, hc⟩ := mem_natToCharsGo n n le_rfl '_' hmem
    have : ∀ d, d < 10 → Nat.digitChar d ≠ '_' := by decide
    exact this d hd hc.symm

theorem natToCharsGo_inj (a : Nat) :
    ∀ b fa fb, a ≤ fa → b ≤ fb → natToCharsGo fa a = natToCharsGo fb b → a = b := by
  induction a using Nat.strong_induction_on with
  | _ a ih =>
      intro b fa fb ha hb h
      cases a with
      | zero =>
          rw [natToCharsGo_zero] at h
          by_contra hab
          exact natToCharsGo_ne_nil b fb (by omega) hb h.symm
      | succ m =>
          cases b with
          | zero =>
              rw [natToCharsGo_zero] at h
              cases fa with
              | zero => omega
              | succ g => exact absurd h (natToCharsGo_ne_nil (m + 1) (g + 1) (by omega) ha)
          | succ p =>
              cases fa with
              | zero => omega
              | succ ga =>
                  cases fb with
                  | zero => omega
                  | succ gb =>
                      rw [natToCharsGo, natToCharsGo] at h
                      have h' := congrArg List.reverse h
                      simp only [List.reverse_append, List.reverse_cons,
                        List.reverse_nil, List.nil_append, List.cons_append,
                        List.cons.injEq] at h'
                      obtain ⟨hdig, hrest⟩ := h'
                      have hdinj : ∀ d1 < 10, ∀ d2 < 10,
                          Nat.digitChar d1 = Nat.digitChar d2 → d1 = d2 := by decide
                      have hmod : (m + 1) % 10 = (p + 1) % 10 :=
                        hdinj _ (Nat.mod_lt _ (by norm_num)) _ (Nat.mod_lt _ (by norm_num))
                          hdig
                      have hda : (m + 1) / 10 < m + 1 :=
                        Nat.div_lt_self (Nat.succ_pos m) (by norm_num)
                      have hrest' : natToCharsGo ga ((m + 1) / 10)
                          = natToCharsGo gb ((p + 1) / 10) := by
                        have := congrArg List.reverse hrest
                        simpa using this
                      have hdiv : (m + 1) / 10 = (p + 1) / 10 :=
                        ih _ hda _ ga gb (by omega)
                          (by
                            have : (p + 1) / 10 < p + 1 :=
                              Nat.div_lt_self (Nat.succ_pos p) (by norm_num)
                            omega) hrest'
                      omega

theorem natToCharsGo_ne_zero_singleton (n f : Nat) (hn : 1 ≤ n) (hf : n ≤ f) :
    natToCharsGo f n ≠ ['0'] := by
  cases n with
  | zero => omega
  | succ m =>
      cases f with
      | zero => omega
      | succ g =>
          rw [natToCharsGo]
          rcases Nat.eq_zero_or_pos ((m + 1) / 10) with hdiv | hdiv
          · rw [hdiv, natToCharsGo_zero]
            have h10 : m + 1 < 10 := by omega
            have hmod : (m + 1) % 10 = m + 1 := Nat.mod_eq_of_lt h10
            rw [hmod]
            have hz : ∀ d < 10, d ≠ 0 → Nat.digitChar d ≠ '0' := by decide
            simpa using hz (m + 1) h10 (by omega)
          · intro heq
            have hlt : (m + 1) / 10 < m + 1 :=
              Nat.div_lt_self (Nat.succ_pos m) (by norm_num)
            have hne := natToCharsGo_ne_nil ((m + 1) / 10) g hdiv (by omega)
            rcases hgo : natToCharsGo g ((m + 1) / 10) with _ | ⟨c, t⟩
            · exact hne hgo
            · rw [hgo] at heq
              simp at heq

theorem natToChars_inj {a b : Nat} (h : natToChars a = natToChars b) : a = b := by
  rw [natToChars, natToChars] at h
  by_cases ha : a = 0
  · by_cases hb : b = 0
    · omega
    · rw [if_pos ha, if_neg hb] at h
      exact absurd h.symm (natToCharsGo_ne_zero_singleton b b (by omega) le_rfl)
  · by_cases hb : b = 0
    · rw [if_neg ha, if_pos hb] at h
      exact absurd h (natToCharsGo_ne_zero_singleton a a (by omega) le_rfl)
    · rw [if_neg ha, if_neg hb] at h
      exact natToCharsGo_inj a b a b le_rfl le_rfl h

-- ── Assigned-key specification of the buildFlatMap loop ──

/-- The key assigned to a node whose base key is `b` when the bases of the
earlier nodes are `prev`: the first occurrence keeps `b`, the `c+1`-st gets
the suffix `_&#123;c+1&#125;`-style decimal tag `b ++ "_" ++ (c+1)`. -/
def keyFor (prev : List (List Char)) (b : List Char) : List Char :=
  if prev.count b = 0 then b else b ++ '_' :: natToChars (prev.count b + 1)

/-- Keys assigned by the `buildFlatMap` loop to the nodes with base keys
`bs`, after earlier nodes with base keys `prev` have been processed. -/
def assignedKeysAux (prev : List (List Char)) : List (List Char) → List (List Char)
  | [] => []
  | b :: rest => keyFor prev b :: assignedKeysAux (prev ++ [b]) rest

/-- Keys assigned by the `buildFlatMap` loop, in input order. -/
def assignedKeys (bs : List (List Char)) : List (List Char) := assignedKeysAux [] bs

/-- Repeated JS object assignment `flat[k] = v` over a list of pairs. -/
def flatInsertAll (flat : FlatMap) (pairs : List (List Char × List Char)) : FlatMap :=
  pairs.foldl (fun f e => objSet e.1 e.2 f) flat

theorem assignedKeysAux_length (prev : List (List Char)) :
    ∀ bs, (assignedKeysAux prev bs).length = bs.length := by
  intro bs
  induction bs generalizing prev with
  | nil => rfl
  | cons b rest ih => simp [assignedKeysAux, ih]

theorem assignedKeys_length (bs : List (List Char)) :
    (assignedKeys bs).length = bs.length := assignedKeysAux_length [] bs

theorem assignedKeysAux_append (l1 : List (List Char)) :
    ∀ (prev l2 : List (List Char)),
      assignedKeysAux prev (l1 ++ l2)
        = assignedKeysAux prev l1 ++ assignedKeysAux (prev ++ l1) l2 := by
  induction l1 with
  | nil => intro prev l2; simp [assignedKeysAux]
  | cons b rest ih =>
      intro prev l2
      simp only [List.cons_append, assignedKeysAux, List.cons.injEq, true_and]
      rw [List.append_eq, ih (prev ++ [b]) l2]
      simp [List.append_assoc]

/-- The `usedKeys` map tracks exactly the occurrence counts of the already
processed base keys. -/
theorem buildFlatMapGo_spec (nodes : List TextNode) :
    ∀ (used : List (List Char × Nat)) (flat : FlatMap) (prev : List (List Char)),
      (∀ b, objGet b used = if prev.count b = 0 then none else some (prev.count b)) →
      buildFlatMapGo nodes used flat =
        flatInsertAll flat
          ((assignedKeysAux prev (nodes.map nodeKey)).zip (nodes.map (·.text))) := by
  induction nodes with
  | nil => intro used flat prev _; rfl
  | cons n rest ih =>
      intro used flat prev hinv
      rw [buildFlatMapGo]
      have hkey := hinv (nodeKey n)
      by_cases hc : prev.count (nodeKey n) = 0
      · rw [if_pos hc] at hkey
        rw [hkey]
        simp only [List.map_cons, assignedKeysAux, keyFor, if_pos hc, List.zip_cons_cons]
        have hinv' : ∀ b, objGet b (objSet (nodeKey n) 1 used)
            = if (prev ++ [nodeKey n]).count b = 0 then none
              else some ((prev ++ [nodeKey n]).count b) := by
          intro b
          by_cases hb : b = nodeKey n
          · subst hb
            rw [objGet_objSet_self]
            simp [List.count_append, hc]
          · rw [objGet_objSet_ne (fun h => hb h.symm), hinv b]
            have : ([nodeKey n] : List (List Char)).count b = 0 :=
              List.count_eq_zero.mpr (by simpa using hb)
            simp [List.count_append, this]
        rw [ih _ _ _ hinv']
        rfl
      · rw [if_neg hc] at hkey
        rw [hkey]
        simp only [List.map_cons, assignedKeysAux, keyFor, if_neg hc, List.zip_cons_cons]
        have hinv' : ∀ b, objGet b (objSet (nodeKey n) (prev.count (nodeKey n) + 1) used)
            = if (prev ++ [nodeKey n]).count b = 0 then none
              else some ((prev ++ [nodeKey n]).count b) := by
          intro b
          by_cases hb : b = nodeKey n
          · subst hb
            rw [objGet_objSet_self]
            simp [List.count_append]
          · rw [objGet_objSet_ne (fun h => hb h.symm), hinv b]
            have : ([nodeKey n] : List (List Char)).count b = 0 :=
              List.count_eq_zero.mpr (by simpa using hb)
            simp [List.count_append, this]
        rw [ih _ _ _ hinv']
        rfl

/-- `buildFlatMap` performs exactly the assigned-key insertions, in input
order. -/
theorem buildFlatMap_eq_flatInsertAll (nodes : List TextNode) :
    buildFlatMap nodes =
      flatInsertAll [] ((assignedKeys (nodes.map nodeKey)).zip (nodes.map (·.text))) :=
  buildFlatMapGo_spec nodes [] [] [] (fun b => by simp [objGet])

-- ── Key distinctness ──

theorem keyFor_ne_same_base {b : List Char} {p1 p2 : List (List Char)}
    (h : p1.count b < p2.count b) : keyFor p1 b ≠ keyFor p2 b := by
  unfold keyFor
  by_cases h1 : p1.count b = 0
  · rw [if_pos h1, if_neg (by omega)]
    intro heq
    have hlen := congrArg List.length heq
    have hnn : 0 < (natToChars (p2.count b + 1)).length :=
      List.length_pos.mpr (natToChars_ne_nil _)
    simp [List.length_append] at hlen
  · rw [if_neg h1, if_neg (by omega)]
    intro heq
    have h2 : natToChars (p1.count b + 1) = natToChars (p2.count b + 1) := by
      have := List.append_cancel_left heq
      simpa using this
    have h3 := natToChars_inj h2
    omega

theorem underscore_split_eq {b1 b2 e1 e2 : List Char}
    (h : b1 ++ '_' :: e1 = b2 ++ '_' :: e2) (hu1 : '_' ∉ e1)
    (hle : b1.length ≤ b2.length) : b1 = b2 := by
  have ht := congrArg (List.take b1.length) h
  rw [List.take_left, List.take_append_of_le_length hle] at ht
  have hd := congrArg (List.drop b1.length) h
  rw [List.drop_left, List.drop_append_of_le_length hle] at hd
  rcases hmid : b2.drop b1.length with _ | ⟨c, t⟩
  · have hlenmid := congrArg List.length hmid
    simp at hlenmid
    have hlen : b1.length = b2.length := by omega
    rw [ht, hlen, List.take_length]
  · rw [hmid] at hd
    simp only [List.cons_append, List.cons.injEq] at hd
    exfalso
    apply hu1
    rw [hd.2]
    exact List.mem_append_right _ (List.mem_cons_self _ _)

theorem suffixed_ne_of_base_ne {b1 b2 : List Char} {n1 n2 : Nat} (hne : b1 ≠ b2) :
    b1 ++ '_' :: natToChars n1 ≠ b2 ++ '_' :: natToChars n2 := by
  intro h
  rcases le_total b1.length b2.length with hle | hle
  · exact hne (underscore_split_eq h (natToChars_no_underscore n1) hle)
  · exact hne (underscore_split_eq h.symm (natToChars_no_underscore n2) hle).symm

/-- Separation condition on a collection of base keys: no base key is another
base key with a `_N` decimal suffix (`N ≥ 2`) appended. Violating it is
exactly what makes the `buildFlatMap` collision scheme overwrite entries. -/
def SuffixSep (all : List (List Char)) : Prop :=
  ∀ b1 ∈ all, ∀ b2 ∈ all, ∀ n, 2 ≤ n → b1 ≠ b2 ++ '_' :: natToChars n

theorem keyFor_ne_of_sep {all : List (List Char)} (hsep : SuffixSep all)
    {b1 b2 : List Char} (h1 : b1 ∈ all) (h2 : b2 ∈ all) (hne : b1 ≠ b2)
    (p1 p2 : List (List Char)) : keyFor p1 b1 ≠ keyFor p2 b2 := by
  unfold keyFor
  by_cases hc1 : p1.count b1 = 0 <;> by_cases hc2 : p2.count b2 = 0
  · rw [if_pos hc1, if_pos hc2]; exact hne
  · rw [if_pos hc1, if_neg hc2]
    exact hsep b1 h1 b2 h2 _ (by omega)
  · rw [if_neg hc1, if_pos hc2]
    intro heq
    exact hsep b2 h2 b1 h1 _ (by omega) heq.symm
  · rw [if_neg hc1, if_neg hc2]
    exact suffixed_ne_of_base_ne hne

theorem mem_assignedKeysAux {x : List Char} :
    ∀ (bs prev : List (List Char)), x ∈ assignedKeysAux prev bs →
      ∃ p b post, bs = p ++ b :: post ∧ x = keyFor (prev ++ p) b := by
  intro bs
  induction bs with
  | nil => intro prev h; simp [assignedKeysAux] at h
  | cons b rest ih =>
      intro prev h
      rcases List.mem_cons.mp h with heq | hmem
      · exact ⟨[], b, rest, rfl, by simpa using heq⟩
      · obtain ⟨p, b', post, hbs, hx⟩ := ih (prev ++ [b]) hmem
        refine ⟨b :: p, b', post, by simp [hbs], ?_⟩
        rw [hx]
        simp [List.append_assoc]

theorem assignedKeysAux_nodup {all : List (List Char)} (hsep : SuffixSep all) :
    ∀ (bs prev : List (List Char)), (∀ b ∈ bs, b ∈ all) →
      (assignedKeysAux prev bs).Nodup := by
  intro bs
  induction bs with
  | nil => intro prev _; simp [assignedKeysAux]
  | cons b rest ih =>
      intro prev hall
      rw [assignedKeysAux, List.nodup_cons]
      constructor
      · intro hmem
        obtain ⟨p, b', post, hrest, hx⟩ := mem_assignedKeysAux rest (prev ++ [b]) hmem
        by_cases hbb : b' = b
        · subst hbb
          have hcnt : prev.count b' < ((prev ++ [b']) ++ p).count b' := by
            simp [List.count_append]
          exact keyFor_ne_same_base hcnt hx
        · have hb'mem : b' ∈ rest := hrest ▸ List.mem_append_right _
            (List.mem_cons_self _ _)
          exact keyFor_ne_of_sep hsep (hall b (List.mem_cons_self _ _))
            (hall b' (List.mem_cons_of_mem _ hb'mem)) (fun h => hbb h.symm) _ _ hx
      · exact ih (prev ++ [b]) (fun b' hb' => hall b' (List.mem_cons_of_mem _ hb'))

theorem assignedKeys_nodup {bs : List (List Char)} (hsep : SuffixSep bs) :
    (assignedKeys bs).Nodup :=
  assignedKeysAux_nodup hsep bs [] (fun _ hb => hb)

theorem objSet_fresh {k : List Char} {v : α} :
    ∀ {es : List (List Char × α)}, objGet k es = none → objSet k v es = es ++ [(k, v)] := by
  intro es h
  induction es with
  | nil => rfl
  | cons e rest ih =>
      obtain ⟨k', v'⟩ := e
      by_cases hk : k' = k
      · simp [objGet, hk] at h
      · simp [objGet, hk] at h
        simp [objSet, hk, ih h]

theorem objGet_append_none {k : List Char} {l2 : List (List Char × α)} :
    ∀ {l1 : List (List Char × α)}, objGet k l1 = none →
      objGet k (l1 ++ l2) = objGet k l2 := by
  intro l1 h
  induction l1 with
  | nil => rfl
  | cons e rest ih =>
      obtain ⟨k', v'⟩ := e
      by_cases hk : k' = k
      · simp [objGet, hk] at h
      · simp [objGet, hk] at h ⊢
        exact ih h

theorem flatInsertAll_fresh :
    ∀ (pairs : List (List Char × List Char)) (flat : FlatMap),
      (∀ e ∈ pairs, objGet e.1 flat = none) → (pairs.map Prod.fst).Nodup →
      flatInsertAll flat pairs = flat ++ pairs := by
  intro pairs
  induction pairs with
  | nil => intro flat _ _; simp [flatInsertAll]
  | cons e rest ih =>
      intro flat hfresh hnd
      have hstep : flatInsertAll flat (e :: rest)
          = flatInsertAll (objSet e.1 e.2 flat) rest := rfl
      rw [hstep, objSet_fresh (hfresh e (List.mem_cons_self _ _))]
      simp only [List.map_cons, List.nodup_cons] at hnd
      rw [ih (flat ++ [(e.1, e.2)]) ?_ hnd.2]
      · simp
      · intro e' he'
        rw [objGet_append_none (hfresh e' (List.mem_cons_of_mem _ he'))]
        have hne : e.1 ≠ e'.1 := by
          intro hkk
          exact hnd.1 (hkk ▸ List.mem_map_of_mem Prod.fst he')
        simp [objGet, hne]

-- ── C6 ──

/-- C6 counterexample: `buildFlatMap` is not collision-free for every input.
The three texts `"k"`, `"k 2"`, `"k"` (empty paths) produce base keys `k`,
`k_2`, `k` in that order; the third node's collision suffix `k_2` coincides
with the second node's base key, so the second entry is overwritten: the
result has two entries for three nodes and the text `"k 2"` is lost. -/
theorem c6_buildFlatMap_collision :
    buildFlatMap [⟨"k".toList, []⟩, ⟨"k 2".toList, []⟩, ⟨"k".toList, []⟩]
      = [("k".toList, "k".toList), ("k_2".toList, "k".toList)] := by decide

/-- C6 amended: `buildFlatMap` is collision-free provided no node's base key
equals another node's base key with a `_N` decimal suffix (`N ≥ 2`) appended:
under that separation condition all assigned keys are distinct, no entry is
overwritten, and the flat map is exactly the assigned-key/text pairs — one
entry per input node. -/
theorem c6_buildFlatMap_collision_free (nodes : List TextNode)
    (hsep : SuffixSep (nodes.map nodeKey)) :
    (assignedKeys (nodes.map nodeKey)).Nodup
    ∧ buildFlatMap nodes
        = (assignedKeys (nodes.map nodeKey)).zip (nodes.map (·.text))
    ∧ (buildFlatMap nodes).length = nodes.length := by
  have hnd := assignedKeys_nodup hsep
  have hlen : (assignedKeys (nodes.map nodeKey)).length = nodes.length := by
    rw [assignedKeys_length]; simp
  have hfst : ((assignedKeys (nodes.map nodeKey)).zip (nodes.map (·.text))).map Prod.fst
      = assignedKeys (nodes.map nodeKey) :=
    List.map_fst_zip _ _ (by simp [hlen])
  have heq : buildFlatMap nodes
      = (assignedKeys (nodes.map nodeKey)).zip (nodes.map (·.text)) := by
    rw [buildFlatMap_eq_flatInsertAll nodes,
      flatInsertAll_fresh _ [] (fun e _ => rfl) (by rw [hfst]; exact hnd)]
    rfl
  refine ⟨hnd, heq, ?_⟩
  rw [heq, List.length_zip]
  simp [hlen]

theorem no_underscore_sep {b1 : List Char} (b2 : List Char) (h : '_' ∉ b1) (n : Nat) :
    b1 ≠ b2 ++ '_' :: natToChars n := by
  intro heq
  apply h
  rw [heq]
  exact List.mem_append_right _ (List.mem_cons_self _ _)

/-- C6 witness: two nodes with texts `"save"` and `"cancel"` satisfy the
separation condition (their base keys contain no underscore) and receive one
entry each. -/
theorem c6_buildFlatMap_collision_free_witness :
    buildFlatMap [⟨"save".toList, []⟩, ⟨"cancel".toList, []⟩]
      = [("save".toList, "save".toList), ("cancel".toList, "cancel".toList)] := by
  have hkeys : ([⟨"save".toList, []⟩, ⟨"cancel".toList, []⟩] : List TextNode).map nodeKey
      = ["save".toList, "cancel".toList] := by decide
  have hsep : SuffixSep (([⟨"save".toList, []⟩, ⟨"cancel".toList, []⟩] :
      List TextNode).map nodeKey) := by
    rw [hkeys]
    intro b1 hb1 b2 hb2 n _
    have hu : '_' ∉ b1 := by
      rcases List.mem_cons.mp hb1 with h | h
      · rw [h]; decide
      · simp at h
        rw [h]; decide
    exact no_underscore_sep b2 hu n
  rw [(c6_buildFlatMap_collision_free _ hsep).2.1]
  decide

-- ── C5 ──

theorem objGet_flatInsertAll {k v : List Char} :
    ∀ (pairs : List (List Char × List Char)) (flat : FlatMap),
      ((k, v) ∈ pairs ∨ ((∀ e ∈ pairs, e.1 ≠ k) ∧ objGet k flat = some v)) →
      (∀ e ∈ pairs, e.1 = k → e.2 = v) →
      objGet k (flatInsertAll flat pairs) = some v := by
  intro pairs
  induction pairs with
  | nil =>
      intro flat hmem _
      rcases hmem with h | h
      · simp at h
      · exact h.2
  | cons e rest ih =>
      intro flat hmem huniq
      have hstep : flatInsertAll flat (e :: rest)
          = flatInsertAll (objSet e.1 e.2 flat) rest := rfl
      rw [hstep]
      by_cases hek : e.1 = k
      · have hev : e.2 = v := huniq e (List.mem_cons_self _ _) hek
        apply ih
        · by_cases hr : (k, v) ∈ rest
          · exact Or.inl hr
          · refine Or.inr ⟨?_, ?_⟩
            · intro e' he' hk'
              apply hr
              have : e' = (k, v) := by
                have := huniq e' (List.mem_cons_of_mem _ he') hk'
                obtain ⟨a, b⟩ := e'
                simp at hk' this
                simp [hk', this]
              exact this ▸ he'
            · rw [← hek, ← hev]
              exact objGet_objSet_self _ _ _
        · exact fun e' he' => huniq e' (List.mem_cons_of_mem _ he')
      · rcases hmem with h | h
        · rcases List.mem_cons.mp h with heq | hmem'
          · exact absurd (congrArg Prod.fst heq.symm) hek
          · exact ih _ (Or.inl hmem') (fun e' he' => huniq e' (List.mem_cons_of_mem _ he'))
        · apply ih
          · refine Or.inr ⟨fun e' he' => h.1 e' (List.mem_cons_of_mem _ he'), ?_⟩
            rw [objGet_objSet_ne hek]
            exact h.2
          · exact fun e' he' => huniq e' (List.mem_cons_of_mem _ he')

theorem keyFor_notin {b : List Char} {targets : List (List Char)}
    (h0 : b ∉ targets) (hs : ∀ n, 2 ≤ n → b ++ '_' :: natToChars n ∉ targets)
    (p : List (List Char)) : keyFor p b ∉ targets := by
  unfold keyFor
  by_cases hc : p.count b = 0
  · rw [if_pos hc]; exact h0
  · rw [if_neg hc]; exact hs _ (by omega)

theorem self_ne_suffixed (k : List Char) (n : Nat) : k ≠ k ++ '_' :: natToChars n := by
  intro h
  have hlen := congrArg List.length h
  have hnn : 0 < (natToChars n).length := List.length_pos.mpr (natToChars_ne_nil _)
  simp [List.length_append] at hlen

theorem suffixed_two_ne_three (k : List Char) :
    k ++ '_' :: natToChars 2 ≠ k ++ '_' :: natToChars 3 := by
  intro h
  have h' := List.append_cancel_left h
  have h23 : natToChars 2 = natToChars 3 := by simpa using h'
  exact (by decide : natToChars 2 ≠ natToChars 3) h23

/-- C5: in a node sequence where exactly three nodes produce the base key `k`
(and no other node produces `k` or a `_N`-suffixed form of `k` as its key),
`buildFlatMap` assigns those three nodes the keys `k`, `k_2`, `k_3` in input
order: the resulting map binds `k` to the first node's text, `k_2` to the
second's, and `k_3` to the third's. -/
theorem c5_buildFlatMap_three_collisions
    (A B C D : List TextNode) (n1 n2 n3 : TextNode) (k : List Char)
    (h1 : nodeKey n1 = k) (h2 : nodeKey n2 = k) (h3 : nodeKey n3 = k)
    (hother : ∀ m ∈ ((A ++ B) ++ C) ++ D,
        nodeKey m ∉ [k, k ++ '_' :: natToChars 2, k ++ '_' :: natToChars 3]
        ∧ ∀ n, 2 ≤ n → nodeKey m ++ '_' :: natToChars n
            ∉ [k, k ++ '_' :: natToChars 2, k ++ '_' :: natToChars 3]) :
    objGet k (buildFlatMap (A ++ (n1 :: (B ++ (n2 :: (C ++ (n3 :: D)))))))
        = some n1.text
    ∧ objGet (k ++ '_' :: natToChars 2)
        (buildFlatMap (A ++ (n1 :: (B ++ (n2 :: (C ++ (n3 :: D)))))))
        = some n2.text
    ∧ objGet (k ++ '_' :: natToChars 3)
        (buildFlatMap (A ++ (n1 :: (B ++ (n2 :: (C ++ (n3 :: D)))))))
        = some n3.text := by
  have hmemA : ∀ m ∈ A, m ∈ ((A ++ B) ++ C) ++ D := by
    intro m hm
    exact List.mem_append_left _ (List.mem_append_left _ (List.mem_append_left _ hm))
  have hmemB : ∀ m ∈ B, m ∈ ((A ++ B) ++ C) ++ D := by
    intro m hm
    exact List.mem_append_left _ (List.mem_append_left _ (List.mem_append_right _ hm))
  have hmemC : ∀ m ∈ C, m ∈ ((A ++ B) ++ C) ++ D := by
    intro m hm
    exact List.mem_append_left _ (List.mem_append_right _ hm)
  have hmemD : ∀ m ∈ D, m ∈ ((A ++ B) ++ C) ++ D := by
    intro m hm
    exact List.mem_append_right _ hm
  have hcount : ∀ (L : List TextNode), (∀ m ∈ L, m ∈ ((A ++ B) ++ C) ++ D) →
      (L.map nodeKey).count k = 0 := by
    intro L hsub
    rw [List.count_eq_zero]
    intro hk
    obtain ⟨m, hmL, hmk⟩ := List.mem_map.mp hk
    exact (hother m (hsub m hmL)).1 (hmk ▸ List.mem_cons_self _ _)
  have hcA := hcount A hmemA
  have hcB := hcount B hmemB
  have hcC := hcount C hmemC
  -- keys assigned to the three k-nodes
  have hkf1 : keyFor (A.map nodeKey) k = k := by
    unfold keyFor
    rw [if_pos hcA]
  have hkf2 : keyFor ((A.map nodeKey ++ [k]) ++ B.map nodeKey) k
      = k ++ '_' :: natToChars 2 := by
    unfold keyFor
    have hc : ((A.map nodeKey ++ [k]) ++ B.map nodeKey).count k = 1 := by
      simp [List.count_append, hcA, hcB]
    rw [hc]
    rfl
  have hkf3 : keyFor ((((A.map nodeKey ++ [k]) ++ B.map nodeKey) ++ [k])
      ++ C.map nodeKey) k = k ++ '_' :: natToChars 3 := by
    unfold keyFor
    have hc : ((((A.map nodeKey ++ [k]) ++ B.map nodeKey) ++ [k])
        ++ C.map nodeKey).count k = 2 := by
      simp [List.count_append, hcA, hcB, hcC]
    rw [hc]
    rfl
  -- decomposition of the assigned key list
  have hbases : (A ++ (n1 :: (B ++ (n2 :: (C ++ (n3 :: D)))))).map nodeKey
      = A.map nodeKey ++ (k :: (B.map nodeKey
          ++ (k :: (C.map nodeKey ++ (k :: D.map nodeKey))))) := by
    simp [h1, h2, h3]
  have hkeys : assignedKeys ((A ++ (n1 :: (B ++ (n2 :: (C ++ (n3 :: D)))))).map nodeKey)
      = assignedKeysAux [] (A.map nodeKey)
        ++ (k :: (assignedKeysAux (A.map nodeKey ++ [k]) (B.map nodeKey)
          ++ ((k ++ '_' :: natToChars 2)
            :: (assignedKeysAux (((A.map nodeKey ++ [k]) ++ B.map nodeKey) ++ [k])
                  (C.map nodeKey)
              ++ ((k ++ '_' :: natToChars 3)
                :: assignedKeysAux ((((A.map nodeKey ++ [k]) ++ B.map nodeKey) ++ [k])
                      ++ (C.map nodeKey ++ [k])) (D.map nodeKey)))))) := by
    rw [hbases, assignedKeys, assignedKeysAux_append, List.nil_append, assignedKeysAux,
      hkf1, assignedKeysAux_append, assignedKeysAux, hkf2, assignedKeysAux_append,
      assignedKeysAux, hkf3]
    simp [List.append_assoc]
  have htexts : (A ++ (n1 :: (B ++ (n2 :: (C ++ (n3 :: D)))))).map (·.text)
      = A.map (·.text) ++ (n1.text :: (B.map (·.text)
          ++ (n2.text :: (C.map (·.text) ++ (n3.text :: D.map (·.text)))))) := by
    simp
  have hlenA : (assignedKeysAux [] (A.map nodeKey)).length = (A.map (·.text)).length := by
    rw [assignedKeysAux_length]
    simp
  have hlenB : (assignedKeysAux (A.map nodeKey ++ [k]) (B.map nodeKey)).length
      = (B.map (·.text)).length := by
    rw [assignedKeysAux_length]
    simp
  have hlenC : (assignedKeysAux (((A.map nodeKey ++ [k]) ++ B.map nodeKey) ++ [k])
      (C.map nodeKey)).length = (C.map (·.text)).length := by
    rw [assignedKeysAux_length]
    simp
  have hpairs : (assignedKeys ((A ++ (n1 :: (B ++ (n2 :: (C ++ (n3 :: D)))))).map nodeKey)).zip
        ((A ++ (n1 :: (B ++ (n2 :: (C ++ (n3 :: D)))))).map (·.text))
      = ((assignedKeysAux [] (A.map nodeKey)).zip (A.map (·.text)))
        ++ ((k, n1.text)
          :: (((assignedKeysAux (A.map nodeKey ++ [k]) (B.map nodeKey)).zip
                (B.map (·.text)))
            ++ ((k ++ '_' :: natToChars 2, n2.text)
              :: (((assignedKeysAux (((A.map nodeKey ++ [k]) ++ B.map nodeKey) ++ [k])
                      (C.map nodeKey)).zip (C.map (·.text)))
                ++ ((k ++ '_' :: natToChars 3, n3.text)
                  :: ((assignedKeysAux ((((A.map nodeKey ++ [k]) ++ B.map nodeKey) ++ [k])
                        ++ (C.map nodeKey ++ [k])) (D.map nodeKey)).zip
                      (D.map (·.text)))))))) := by
    rw [hkeys, htexts, List.zip_append hlenA, List.zip_cons_cons,
      List.zip_append hlenB, List.zip_cons_cons, List.zip_append hlenC,
      List.zip_cons_cons]
  -- assigned keys of the other nodes never hit the three target keys
  have hothers : ∀ (L : List TextNode), (∀ m ∈ L, m ∈ ((A ++ B) ++ C) ++ D) →
      ∀ (prev : List (List Char)) e,
        e ∈ (assignedKeysAux prev (L.map nodeKey)).zip (L.map (·.text)) →
        e.1 ∉ [k, k ++ '_' :: natToChars 2, k ++ '_' :: natToChars 3] := by
    intro L hsub prev e he
    have hfst := (List.of_mem_zip he).1
    obtain ⟨p, b, post, hLb, hx⟩ := mem_assignedKeysAux _ _ hfst
    have hbmem : b ∈ L.map nodeKey :=
      hLb ▸ List.mem_append_right _ (List.mem_cons_self _ _)
    obtain ⟨m, hmL, hmk⟩ := List.mem_map.mp hbmem
    rw [hx, ← hmk]
    exact keyFor_notin (hother m (hsub m hmL)).1 (hother m (hsub m hmL)).2 _
  have hne2 := self_ne_suffixed k 2
  have hne3 := self_ne_suffixed k 3
  have hne23 := suffixed_two_ne_three k
  rw [buildFlatMap_eq_flatInsertAll, hpairs]
  refine ⟨?_, ?_, ?_⟩
  · apply objGet_flatInsertAll
    · exact Or.inl (List.mem_append_right _ (List.mem_cons_self _ _))
    · intro e he hek
      rcases List.mem_append.mp he with hA | hrest
      · exact absurd (hek ▸ List.mem_cons_self k _) (hothers A hmemA _ e hA)
      rcases List.mem_cons.mp hrest with heq | hrest
      · rw [heq]
      rcases List.mem_append.mp hrest with hB | hrest
      · exact absurd (hek ▸ List.mem_cons_self k _) (hothers B hmemB _ e hB)
      rcases List.mem_cons.mp hrest with heq | hrest
      · rw [heq] at hek
        exact absurd hek.symm hne2
      rcases List.mem_append.mp hrest with hC | hrest
      · exact absurd (hek ▸ List.mem_cons_self k _) (hothers C hmemC _ e hC)
      rcases List.mem_cons.mp hrest with heq | hrest
      · rw [heq] at hek
        exact absurd hek.symm hne3
      · exact absurd (hek ▸ List.mem_cons_self k _) (hothers D hmemD _ e hrest)
  · apply objGet_flatInsertAll
    · refine Or.inl (List.mem_append_right _ (List.mem_cons_of_mem _
        (List.mem_append_right _ (List.mem_cons_self _ _))))
    · intro e he hek
      have hmem2 : k ++ '_' :: natToChars 2
          ∈ [k, k ++ '_' :: natToChars 2, k ++ '_' :: natToChars 3] := by
        simp
      rcases List.mem_append.mp he with hA | hrest
      · exact absurd (hek ▸ hmem2) (hothers A hmemA _ e hA)
      rcases List.mem_cons.mp hrest with heq | hrest
      · rw [heq] at hek
        exact absurd hek hne2
      rcases List.mem_append.mp hrest with hB | hrest
      · exact absurd (hek ▸ hmem2) (hothers B hmemB _ e hB)
      rcases List.mem_cons.mp hrest with heq | hrest
      · rw [heq]
      rcases List.mem_append.mp hrest with hC | hrest
      · exact absurd (hek ▸ hmem2) (hothers C hmemC _ e hC)
      rcases List.mem_cons.mp hrest with heq | hrest
      · rw [heq] at hek
        exact absurd hek.symm hne23
      · exact absurd (hek ▸ hmem2) (hothers D hmemD _ e hrest)
  · apply objGet_flatInsertAll
    · refine Or.inl (List.mem_append_right _ (List.mem_cons_of_mem _
        (List.mem_append_right _ (List.mem_cons_of_mem _
          (List.mem_append_right _ (List.mem_cons_self _ _))))))
    · intro e he hek
      have hmem3 : k ++ '_' :: natToChars 3
          ∈ [k, k ++ '_' :: natToChars 2, k ++ '_' :: natToChars 3] := by
        simp
      rcases List.mem_append.mp he with hA | hrest
      · exact absurd (hek ▸ hmem3) (hothers A hmemA _ e hA)
      rcases List.mem_cons.mp hrest with heq | hrest
      · rw [heq] at hek
        exact absurd hek hne3
      rcases List.mem_append.mp hrest with hB | hrest
      · exact absurd (hek ▸ hmem3) (hothers B hmemB _ e hB)
      rcases List.mem_cons.mp hrest with heq | hrest
      · rw [heq] at hek
        exact absurd hek hne23
      rcases List.mem_append.mp hrest with hC | hrest
      · exact absurd (hek ▸ hmem3) (hothers C hmemC _ e hC)
      rcases List.mem_cons.mp hrest with heq | hrest
      · rw [heq]
      · exact absurd (hek ▸ hmem3) (hothers D hmemD _ e hrest)

/-- C5 witness: three nodes with text `"save"` and empty paths get the keys
`save`, `save_2`, `save_3`; in particular `save_2` is bound to the second
node's text. -/
theorem c5_buildFlatMap_three_collisions_witness :
    objGet "save_2".toList
      (buildFlatMap [⟨"save".toList, []⟩, ⟨"save".toList, []⟩, ⟨"save".toList, []⟩])
      = some "save".toList := by
  have h := c5_buildFlatMap_three_collisions [] [] [] []
    ⟨"save".toList, []⟩ ⟨"save".toList, []⟩ ⟨"save".toList, []⟩ "save".toList
    (by decide) (by decide) (by decide) (by intro m hm; simp at hm)
  exact h.2.1

-- ── Translator (translator.js) ──

/-- Outcome of one `client.messages.create` call in `_translateBatch`,
together with the JSON-parse outcome of the (fence-stripped) response text:
either the transport layer throws with an HTTP status, or a text is returned
whose parse result is `none` (unparseable as JSON) or a key-to-string map. -/
inductive ApiResponse where
  | transportError (status : Nat)
  | text (parsed : Option FlatMap)

/-- Outcome of one scoring call in `_scoreBatch`: transport error, or a text
parsing to `none` (unparseable) or a key-to-score map (`none` entries model
JSON `null` scores). -/
inductive ScoreResponse where
  | transportError
  | text (parsed : Option (List (List Char × Option Int)))

/-- Errors thrown out of the translator. -/
inductive TrError where
  | unsupportedLanguage
  | authError
  | rateLimited
  | apiError (status : Nat)

/-- `_handleApiError` (translator.js lines 194-204): 401 and 429 become
dedicated errors, anything else is rethrown. -/
def handleApiError (status : Nat) : TrError :=
  if status = 401 then .authError
  else if status = 429 then .rateLimited
  else .apiError status

/-- `LANGUAGES` (translator.js lines 11-15). -/
def languages : List (List Char × List Char) :=
  [("ko".toList, "Korean (한국어)".toList),
   ("zh".toList, "Chinese Simplified (简体中文)".toList),
   ("ja".toList, "Japanese (日本語)".toList)]

/-- `_translateBatch(batch, langName, retryCount)` (translator.js lines
87-142). `respond r` is the backend interaction of the attempt with
`retryCount = r`. An unparseable response retries while `retryCount < 2` and
then falls back to the original batch; a parsed response whose unchanged
fraction exceeds 80% also retries. The JS float comparison
`unchangedCount / total > 0.8` coincides with the exact rational comparison
`5 * unchangedCount > 4 * total` for all attainable batch sizes, which is how
it is rendered here. A transport error propagates via `_handleApiError`. -/
def translateBatch (respond : Nat → ApiResponse) (batch : FlatMap)
    (retryCount : Nat) : Except TrError FlatMap :=
  match respond retryCount with
  | .transportError status => .error (handleApiError status)
  | .text none =>
      if _h : retryCount < 2 then translateBatch respond batch (retryCount + 1)
      else .ok batch
  | .text (some parsed) =>
      let unchangedCount := (parsed.filter (fun e => objGet e.1 batch = some e.2)).length
      let total := batch.length
      if _h : 5 * unchangedCount > 4 * total ∧ retryCount < 2 then
        translateBatch respond batch (retryCount + 1)
      else .ok parsed
termination_by 2 - retryCount

/-- `slice(i, i + size)` chunking of the batching loops (translator.js lines
53 and 68). -/
def chunkPairs (size : Nat) (l : FlatMap) : List FlatMap :=
  if l = [] ∨ size = 0 then []
  else l.take size :: chunkPairs size (l.drop size)
termination_by l.length
decreasing_by
  rename_i h
  push_neg at h
  have h1 : l ≠ [] := h.1
  have h2 : 0 < size := Nat.pos_of_ne_zero h.2
  have : 0 < l.length := List.length_pos.mpr h1
  simp [List.length_drop]
  omega

/-- `Object.assign(target, src)` over association lists with arbitrary value
type. -/
def assignAll (flat news : List (List Char × α)) : List (List Char × α) :=
  news.foldl (fun f e => objSet e.1 e.2 f) flat

/-- Stage-1 loop of `translateFlatMap` (translator.js lines 53-62): each
batch is translated (with its own retry budget) and merged into the
accumulating result; a thrown error aborts the run. -/
def translateChunks (respondT : Nat → Nat → ApiResponse) :
    List FlatMap → Nat → FlatMap → Except TrError FlatMap
  | [], _, acc => .ok acc
  | batch :: rest, i, acc =>
      match translateBatch (respondT i) batch 0 with
      | .error e => .error e
      | .ok translated => translateChunks respondT rest (i + 1) (assignAll acc translated)

/-- `_scoreBatch(enBatch, trBatch, langName)` (translator.js lines 147-189):
a transport error or an unparseable response degrades to `null` scores for
every key of the batch; otherwise the parsed score map is returned. -/
def scoreBatch (resp : ScoreResponse) (enBatch trBatch : FlatMap) :
    List (List Char × Option Int) :=
  match resp with
  | .transportError => enBatch.map (fun e => (e.1, none))
  | .text none => enBatch.map (fun e => (e.1, none))
  | .text (some scores) => scores

/-- Stage-2 loop of `translateFlatMap` (translator.js lines 66-75):
`trBatch` rebuilds each batch from the accumulated translations
(`translatedResult[k] || ''`), and the per-batch scores are merged into the
confidence result. -/
def scoreChunks (respondS : Nat → ScoreResponse) (translated : FlatMap) :
    List FlatMap → Nat → List (List Char × Option Int) → List (List Char × Option Int)
  | [], _, acc => acc
  | batch :: rest, i, acc =>
      let trBatch := batch.map (fun e => (e.1, (objGet e.1 translated).getD []))
      scoreChunks respondS translated rest (i + 1)
        (assignAll acc (scoreBatch (respondS i) batch trBatch))

/-- File-system interaction of `_saveConfidence` (translator.js lines
209-221): the previously stored per-language maps (an unreadable file has
already degraded to `{}`), and whether the final write succeeds. -/
structure ConfidenceIO where
  prior : List (List Char × List (List Char × Int))
  writeOk : Bool

/-- `_saveConfidence(lang, confidenceMap)`: `null` scores are dropped, the
language's map is merged (not replaced) into the stored maps, and the write
may fail. -/
def saveConfidence (io : ConfidenceIO) (lang : List Char)
    (confidenceMap : List (List Char × Option Int)) :
    Except Unit (List (List Char × List (List Char × Int))) :=
  let filtered := confidenceMap.filterMap (fun e => e.2.map (fun v => (e.1, v)))
  let prevLang := (objGet lang io.prior).getD []
  let merged := objSet lang (assignAll prevLang filtered) io.prior
  if io.writeOk then .ok merged else .error ()

/-- Result of `translateFlatMap`: the returned translation map, plus (as an
observable side effect) the confidence store written by the scoring stage, or
`none` when the scoring stage failed and the surrounding `try`/`catch`
swallowed the error. -/
structure TranslateResult where
  translated : FlatMap
  savedConfidence : Option (List (List Char × List (List Char × Int)))

/-- `translateFlatMap(flatMap, targetLang)` (translator.js lines 45-82):
an unsupported language throws; stage 1 translates batches of 50; stage 2
(scores in batches of 80 and persists them) runs inside a `try`/`catch`
whose handler only logs, so its outcome never affects the returned map. -/
def translateFlatMap (respondT : Nat → Nat → ApiResponse)
    (respondS : Nat → ScoreResponse) (io : ConfidenceIO)
    (flatMap : FlatMap) (targetLang : List Char) : Except TrError TranslateResult :=
  match objGet targetLang languages with
  | none => .error .unsupportedLanguage
  | some _ =>
      match translateChunks respondT (chunkPairs 50 flatMap) 0 [] with
      | .error e => .error e
      | .ok translatedResult =>
          let confidenceResult :=
            scoreChunks respondS translatedResult (chunkPairs 80 flatMap) 0 []
          match saveConfidence io targetLang confidenceResult with
          | .ok saved => .ok ⟨translatedResult, some saved⟩
          | .error _ => .ok ⟨translatedResult, none⟩

-- ── C8 ──

/-- C8: if the backend response is unparseable on the initial attempt and on
both retries (retry ceiling 2), `_translateBatch` returns exactly the batch's
original entries and does not raise. -/
theorem c8_translateBatch_fallback (respond : Nat → ApiResponse) (batch : FlatMap)
    (h0 : respond 0 = .text none) (h1 : respond 1 = .text none)
    (h2 : respond 2 = .text none) :
    translateBatch respond batch 0 = .ok batch := by
  rw [translateBatch, h0]
  simp only
  rw [dif_pos (by omega : (0 : Nat) < 2)]
  rw [translateBatch, h1]
  simp only
  rw [dif_pos (by omega : (1 : Nat) < 2)]
  rw [translateBatch, h2]
  simp only
  rw [dif_neg (by omega : ¬(2 : Nat) < 2)]

/-- C8 witness: a backend that always produces unparseable responses makes
`_translateBatch` fall back to the original batch. -/
theorem c8_translateBatch_fallback_witness :
    translateBatch (fun _ => ApiResponse.text none)
      [("a".toList, "hello".toList)] 0 = .ok [("a".toList, "hello".toList)] :=
  c8_translateBatch_fallback (fun _ => ApiResponse.text none)
    [("a".toList, "hello".toList)] rfl rfl rfl

-- ── C9 ──

/-- C9: the confidence-scoring stage never alters the translated map returned
by `translateFlatMap` and never raises out of it: for any two behaviours of
the scoring backend and of the confidence persistence (including transport
errors, unparseable score responses, and write failures), the function
returns the same translated map with the same error-vs-success status — in
particular the same as when scoring succeeds — while `_scoreBatch` degrades a
failed batch to `null` scores for every key. -/
theorem c9_confidence_independence
    (respondT : Nat → Nat → ApiResponse) (respondS respondS' : Nat → ScoreResponse)
    (io io' : ConfidenceIO) (flatMap : FlatMap) (targetLang : List Char) :
    (translateFlatMap respondT respondS io flatMap targetLang).map (·.translated)
      = (translateFlatMap respondT respondS' io' flatMap targetLang).map (·.translated)
    ∧ ∀ enBatch trBatch : FlatMap,
        scoreBatch .transportError enBatch trBatch = enBatch.map (fun e => (e.1, none))
        ∧ scoreBatch (.text none) enBatch trBatch = enBatch.map (fun e => (e.1, none)) := by
  constructor
  · rw [translateFlatMap, translateFlatMap]
    cases objGet targetLang languages with
    | none => rfl
    | some langName =>
        simp only
        cases translateChunks respondT (chunkPairs 50 flatMap) 0 [] with
        | error e => rfl
        | ok translatedResult =>
            simp only
            cases saveConfidence io targetLang
                (scoreChunks respondS translatedResult (chunkPairs 80 flatMap) 0 []) with
            | ok s =>
                cases saveConfidence io' targetLang
                    (scoreChunks respondS' translatedResult (chunkPairs 80 flatMap) 0 []) with
                | ok s' => rfl
                | error u => rfl
            | error u =>
                cases saveConfidence io' targetLang
                    (scoreChunks respondS' translatedResult (chunkPairs 80 flatMap) 0 []) with
                | ok s' => rfl
                | error u' => rfl
  · intro enBatch trBatch
    exact ⟨rfl, rfl⟩

-- ── Leaf observation and segment-path ordering ──

/-- The string leaf of a tree at a segment path, if any. -/
def leafAt : List (List Char) → JVal → Option (List Char)
  | [], .str s => some s
  | [], .obj _ => none
  | _ :: _, .str _ => none
  | key :: rest, .obj es =>
      match objGet key es with
      | some v => leafAt rest v
      | none => none

/-- `SegPre p q`: the segment path `p` is a (not necessarily proper) leading
segment of `q`; `p` is the dotted-prefix order on split keys. -/
def SegPre (p q : List (List Char)) : Prop := ∃ t, q = p ++ t

theorem segPre_nil (p : List (List Char)) : SegPre [] p := ⟨p, rfl⟩

theorem segPre_cons_iff {a b : List Char} {p q : List (List Char)} :
    SegPre (a :: p) (b :: q) ↔ a = b ∧ SegPre p q := by
  constructor
  · rintro ⟨t, ht⟩
    rw [List.cons_append] at ht
    obtain ⟨hb, hq⟩ := List.cons.injEq .. ▸ ht
    exact ⟨hb.symm, t, hq⟩
  · rintro ⟨rfl, t, rfl⟩
    exact ⟨t, rfl⟩

theorem not_segPre_cons_nil {a : List Char} {p : List (List Char)} :
    ¬ SegPre (a :: p) [] := by
  rintro ⟨t, ht⟩
  simp at ht

theorem segPre_iff_take {p q : List (List Char)} :
    SegPre p q ↔ q.take p.length = p := by
  constructor
  · rintro ⟨t, rfl⟩
    exact List.take_left p t
  · intro h
    exact ⟨q.drop p.length, by conv_lhs => rw [← List.take_append_drop p.length q, h]⟩

instance (p q : List (List Char)) : Decidable (SegPre p q) :=
  decidable_of_iff _ segPre_iff_take.symm

theorem segPre_snoc {q p : List (List Char)} {x : List Char}
    (h : SegPre q (p ++ [x])) : SegPre q p ∨ q = p ++ [x] := by
  obtain ⟨t, ht⟩ := h
  rcases List.eq_nil_or_concat t with rfl | ⟨t', y, rfl⟩
  · right
    rw [ht, List.append_nil]
  · left
    rw [List.concat_eq_append, ← List.append_assoc] at ht
    have h2 := congrArg List.reverse ht
    simp only [List.reverse_append, List.reverse_cons, List.reverse_nil,
      List.nil_append, List.singleton_append, List.cons.injEq] at h2
    refine ⟨t', ?_⟩
    have h3 := congrArg List.reverse h2.2
    simpa using h3

theorem segPre_mem {q p : List (List Char)} {x : List Char} (h : SegPre p q)
    (hx : x ∈ p) : x ∈ q := by
  obtain ⟨t, rfl⟩ := h
  exact List.mem_append_left _ hx

theorem splitDots_ne_nil (k : List Char) : splitDots k ≠ [] := by
  rw [splitDots, List.splitOn]
  exact List.splitOnP_ne_nil _ _

/-- Inserting a dotted key always installs the new value as the leaf at the
key's own segment path. -/
theorem leafAt_insertDotKeyGo_self :
    ∀ (q : List (List Char)), q ≠ [] →
      ∀ (es : JEntries) (v : List Char),
        leafAt q (.obj (insertDotKeyGo v q es)) = some v := by
  intro q
  induction q with
  | nil => intro h; exact absurd rfl h
  | cons k tail ih =>
      intro _ es v
      match tail with
      | [] =>
          show leafAt [k] (.obj (objSet k (.str v) es)) = some v
          rw [leafAt, objGet_objSet_self]
          rfl
      | k2 :: rest =>
          rw [insertDotKeyGo]
          rw [leafAt, objGet_objSet_self]
          exact ih (by simp) _ v

/-- Effect of inserting dotted key `q` on the leaf at another path `r`: if
`q` does not extend or equal `r`, the leaf survives — in place when `r` is
not a proper leading segment of `q`, demoted under `_value` when it is. The
key `q` must not contain a `_value` segment. -/
theorem leafAt_insertDotKeyGo_other :
    ∀ (q : List (List Char)) (es : JEntries) (r : List (List Char)) (s v : List Char),
      q ≠ [] → valueKey ∉ q →
      leafAt r (.obj es) = some s → ¬ SegPre q r →
      (SegPre r q → leafAt (r ++ [valueKey]) (.obj (insertDotKeyGo v q es)) = some s)
      ∧ (¬ SegPre r q → leafAt r (.obj (insertDotKeyGo v q es)) = some s) := by
  intro q
  induction q with
  | nil => intro es r s v hq; exact absurd rfl hq
  | cons k tail ih =>
      intro es r s v _ hvk hr hnp
      rcases r with _ | ⟨kr, r'⟩
      · simp [leafAt] at hr
      · rw [leafAt] at hr
        cases hw : objGet kr es with
        | none => rw [hw] at hr; simp at hr
        | some w =>
            rw [hw] at hr
            simp only at hr
            match tail with
            | [] =>
                have hkk : k ≠ kr := by
                  intro he
                  exact hnp (he ▸ ⟨r', rfl⟩)
                constructor
                · intro hpre
                  rcases segPre_cons_iff.mp hpre with ⟨hk, _⟩
                  exact absurd hk.symm hkk
                · intro _
                  show leafAt (kr :: r') (.obj (objSet k (.str v) es)) = some s
                  rw [leafAt, objGet_objSet_ne hkk, hw]
                  simp only
                  exact hr
            | k2 :: qrest =>
                rw [insertDotKeyGo]
                by_cases hkk : k = kr
                · subst hkk
                  cases w with
                  | str sw =>
                      rcases r' with _ | ⟨kr2, r''⟩
                      · have hs : sw = s := by simpa [leafAt] using hr
                        rw [hw]
                        have hvk' : valueKey ∉ (k2 :: qrest) :=
                          fun hm => hvk (List.mem_cons_of_mem _ hm)
                        constructor
                        · intro _
                          show leafAt ([k] ++ [valueKey])
                              (.obj (objSet k
                                (.obj (insertDotKeyGo v (k2 :: qrest)
                                  [(valueKey, .str sw)])) es)) = some s
                          rw [List.singleton_append, leafAt, objGet_objSet_self]
                          simp only
                          have hleaf : leafAt [valueKey]
                              (.obj [(valueKey, JVal.str sw)]) = some s := by
                            rw [leafAt]
                            simp [objGet, leafAt, hs]
                          have hnp' : ¬ SegPre (k2 :: qrest) [valueKey] := by
                            rintro ⟨t, ht⟩
                            rw [List.cons_append] at ht
                            have h1 := (List.cons.injEq .. ▸ ht).1
                            exact hvk (List.mem_cons_of_mem _
                              (h1 ▸ List.mem_cons_self _ _))
                          have hih := ih [(valueKey, JVal.str sw)] [valueKey] s v
                            (by simp) hvk' hleaf hnp'
                          apply hih.2
                          rintro ⟨t, ht⟩
                          rw [List.singleton_append] at ht
                          have h1 := (List.cons.injEq .. ▸ ht).1
                          exact hvk (List.mem_cons_of_mem _
                            (h1 ▸ List.mem_cons_self _ _))
                        · intro hnpre
                          exact absurd ⟨k2 :: qrest, rfl⟩ hnpre
                      · simp [leafAt] at hr
                  | obj sw =>
                      rw [hw]
                      have hnp' : ¬ SegPre (k2 :: qrest) r' := by
                        intro hp
                        exact hnp (segPre_cons_iff.mpr ⟨rfl, hp⟩)
                      have hvk' : valueKey ∉ (k2 :: qrest) :=
                        fun hm => hvk (List.mem_cons_of_mem _ hm)
                      have hih := ih sw r' s v (by simp) hvk' hr hnp'
                      constructor
                      · intro hpre
                        rcases segPre_cons_iff.mp hpre with ⟨_, hpre'⟩
                        show leafAt ((k :: r') ++ [valueKey])
                            (.obj (objSet k
                              (.obj (insertDotKeyGo v (k2 :: qrest) sw)) es)) = some s
                        rw [List.cons_append, leafAt, objGet_objSet_self]
                        simp only
                        exact hih.1 hpre'
                      · intro hnpre
                        have hnpre' : ¬ SegPre r' (k2 :: qrest) := by
                          intro hp
                          exact hnpre (segPre_cons_iff.mpr ⟨rfl, hp⟩)
                        show leafAt (k :: r')
                            (.obj (objSet k
                              (.obj (insertDotKeyGo v (k2 :: qrest) sw)) es)) = some s
                        rw [leafAt, objGet_objSet_self]
                        simp only
                        exact hih.2 hnpre'
                · constructor
                  · intro hpre
                    rcases segPre_cons_iff.mp hpre with ⟨hk, _⟩
                    exact absurd hk.symm hkk
                  · intro _
                    show leafAt (kr :: r') _ = some s
                    rw [leafAt, objGet_objSet_ne hkk, hw]
                    simp only
                    exact hr

-- ── C2 ──

/-- C2 counterexample: in the flat map `{"a.b": "x", "a": "y"}` (in that
insertion order), `flatToNested` silently overwrites data: the value `"x"` of
the entry `"a.b"` is not a string leaf anywhere in the resulting tree — the
final assignment for the later, shorter key `"a"` clobbers the subtree built
for `"a.b"`. -/
theorem c2_flatToNested_overwrites :
    ¬ ∃ r : List (List Char),
        leafAt r (flatToNested [("a.b".toList, "x".toList), ("a".toList, "y".toList)])
          = some "x".toList := by
  rintro ⟨r, hr⟩
  rw [show flatToNested [("a.b".toList, "x".toList), ("a".toList, "y".toList)]
      = JVal.obj [("a".toList, JVal.str "y".toList)] from rfl] at hr
  rcases r with _ | ⟨k, rest⟩
  · simp [leafAt] at hr
  · rw [leafAt] at hr
    by_cases hk : "a".toList = k
    · rw [show objGet k [("a".toList, JVal.str "y".toList)]
          = some (JVal.str "y".toList) by rw [objGet, if_pos hk]] at hr
      rcases rest with _ | ⟨k2, rest'⟩
      · simp [leafAt] at hr
      · simp [leafAt] at hr
    · rw [show objGet k [("a".toList, JVal.str "y".toList)] = none by
        rw [objGet, if_neg hk, objGet]] at hr
      simp at hr

/-- C2 amended: `flatToNested` loses no data provided no key is a dotted
prefix of an *earlier* key and no key contains a `_value` segment: every
entry of the input remains present as a string leaf, either at its own
segment path or (when a later longer key demoted it) under a `_value` child
of that path. Without the ordering restriction a shorter key inserted after
a longer one overwrites the longer key's subtree. -/
theorem c2_flatToNested_preserves_entries :
    ∀ (flat : List (List Char × List Char)),
      flat.Pairwise (fun e f => ¬ SegPre (splitDots f.1) (splitDots e.1)) →
      (∀ e ∈ flat, valueKey ∉ splitDots e.1) →
      ∀ e ∈ flat,
        leafAt (splitDots e.1) (flatToNested flat) = some e.2
        ∨ leafAt (splitDots e.1 ++ [valueKey]) (flatToNested flat) = some e.2 := by
  intro flat
  induction flat using List.reverseRecOn with
  | nil => intro _ _ e he; simp at he
  | append_singleton l x ih =>
      intro hord hv e he
      have hstep : flatToNested (l ++ [x])
          = .obj (insertDotKeyGo x.2 (splitDots x.1)
              (l.foldl (fun es e => insertDotKeyGo e.2 (splitDots e.1) es) [])) := by
        rw [flatToNested, flatToNestedEntries, List.foldl_append]
        rfl
      obtain ⟨hordl, _, hcross⟩ := List.pairwise_append.mp hord
      have hq_ne := splitDots_ne_nil x.1
      have hq_vk : valueKey ∉ splitDots x.1 :=
        hv x (List.mem_append_right _ (List.mem_cons_self _ _))
      rcases List.mem_append.mp he with hel | hex
      · have hxe : ¬ SegPre (splitDots x.1) (splitDots e.1) :=
          hcross e hel x (List.mem_cons_self _ _)
        have hres := ih hordl (fun e' he' => hv e' (List.mem_append_left _ he')) e hel
        rcases hres with hres | hres
        · have hmain := leafAt_insertDotKeyGo_other (splitDots x.1) _
            (splitDots e.1) e.2 x.2 hq_ne hq_vk hres hxe
          by_cases hpre : SegPre (splitDots e.1) (splitDots x.1)
          · right
            rw [hstep]
            exact hmain.1 hpre
          · left
            rw [hstep]
            exact hmain.2 hpre
        · have hxe' : ¬ SegPre (splitDots x.1) (splitDots e.1 ++ [valueKey]) := by
            intro hp
            rcases segPre_snoc hp with hp' | hp'
            · exact hxe hp'
            · exact hq_vk (hp' ▸ List.mem_append_right _ (List.mem_cons_self _ _))
          have hmain := leafAt_insertDotKeyGo_other (splitDots x.1) _
            (splitDots e.1 ++ [valueKey]) e.2 x.2 hq_ne hq_vk hres hxe'
          right
          rw [hstep]
          apply hmain.2
          intro hp
          exact hq_vk (segPre_mem hp (List.mem_append_right _ (List.mem_cons_self _ _)))
      · have hex' : e = x := by simpa using hex
        subst hex'
        left
        rw [hstep]
        exact leafAt_insertDotKeyGo_self (splitDots e.1) (splitDots_ne_nil _) _ e.2

/-- C2 witness: inserting `{"a": "x", "a.b": "y"}` in that order, the value
`"x"` survives as the demoted leaf `a._value` and `"y"` sits at `a.b`. -/
theorem c2_flatToNested_preserves_entries_witness :
    leafAt (splitDots "a".toList)
        (flatToNested [("a".toList, "x".toList), ("a.b".toList, "y".toList)])
        = some "x".toList
    ∨ leafAt (splitDots "a".toList ++ [valueKey])
        (flatToNested [("a".toList, "x".toList), ("a.b".toList, "y".toList)])
        = some "x".toList :=
  c2_flatToNested_preserves_entries
    [("a".toList, "x".toList), ("a.b".toList, "y".toList)]
    (by decide) (by decide) ("a".toList, "x".toList) (by decide)

-- ── nestedToFlat (keyGen.js lines 105-116) ──

/-- `prefix ? prefix + "." + key : key` from keyGen.js line 108 (the empty
string is falsy in JS). -/
def mkFullKey (pre k : List Char) : List Char :=
  if pre = [] then k else pre ++ '.' :: k

mutual
/-- `nestedToFlat(nested, prefix)` from keyGen.js lines 105-116: iterate the
entries; a string value is assigned into the accumulating flat object at the
full key, an object value contributes its own recursive flattening via
`Object.assign`. -/
def nestedToFlat (nested : JEntries) (pre : List Char) : List (List Char × List Char) :=
  nestedToFlatGo pre nested []
termination_by (sizeOf nested, 1)

/-- The entry loop of `nestedToFlat`, with the flat object built so far. -/
def nestedToFlatGo (pre : List Char) :
    JEntries → List (List Char × List Char) → List (List Char × List Char)
  | [], flat => flat
  | (k, .str s) :: rest, flat =>
      nestedToFlatGo pre rest (objSet (mkFullKey pre k) s flat)
  | (k, .obj es) :: rest, flat =>
      nestedToFlatGo pre rest (assignAll flat (nestedToFlat es (mkFullKey pre k)))
termination_by l _ => (sizeOf l, 0)
end

/-- Append-style specification of `nestedToFlatGo pre es []`: the flat
entries contributed by `es` under prefix `pre`, in traversal order. -/
def nestedToFlatSpec : JEntries → List Char → List (List Char × List Char)
  | [], _ => []
  | (k, .str s) :: rest, pre => (mkFullKey pre k, s) :: nestedToFlatSpec rest pre
  | (k, .obj es) :: rest, pre =>
      nestedToFlatSpec es (mkFullKey pre k) ++ nestedToFlatSpec rest pre
termination_by l _ => sizeOf l

/-- The string leaves of an entry list, as (segment path, value) pairs in
traversal order. -/
def jLeaves : JEntries → List (List (List Char) × List Char)
  | [] => []
  | (k, .str s) :: rest => ([k], s) :: jLeaves rest
  | (k, .obj es) :: rest =>
      (jLeaves es).map (fun q => (k :: q.1, q.2)) ++ jLeaves rest
termination_by l => sizeOf l

/-- Join segment paths with dots (the inverse of `splitDots` on split
output). -/
def joinSegs : List (List Char) → List Char
  | [] => []
  | [k] => k
  | k :: k2 :: rest => k ++ '.' :: joinSegs (k2 :: rest)

/-- The full key produced for a leaf with segment path `p` reached under the
accumulated prefix `pre`. -/
def extKey (pre : List Char) (p : List (List Char)) : List Char :=
  if pre = [] then joinSegs p else pre ++ '.' :: joinSegs p

theorem joinSegs_cons {k : List Char} {p : List (List Char)} (h : p ≠ []) :
    joinSegs (k :: p) = k ++ '.' :: joinSegs p := by
  match p with
  | [] => exact absurd rfl h
  | k2 :: rest => rw [joinSegs]

theorem joinSegs_eq_intercalate :
    ∀ p : List (List Char), joinSegs p = List.intercalate ['.'] p := by
  intro p
  match p with
  | [] => rfl
  | [k] => simp [joinSegs, List.intercalate]
  | k :: k2 :: rest =>
      rw [joinSegs_cons (by simp), joinSegs_eq_intercalate (k2 :: rest)]
      rw [List.intercalate, List.intercalate, List.intersperse_cons_cons]
      simp

theorem joinSegs_splitDots (k : List Char) : joinSegs (splitDots k) = k := by
  rw [joinSegs_eq_intercalate, splitDots]
  exact List.intercalate_splitOn k '.'

theorem splitDots_injective {k1 k2 : List Char} (h : splitDots k1 = splitDots k2) :
    k1 = k2 := by
  rw [← joinSegs_splitDots k1, ← joinSegs_splitDots k2, h]

theorem objGet_decomp {k : List Char} {w : α} :
    ∀ {es : List (List Char × α)}, objGet k es = some w →
      ∃ A B, es = A ++ (k, w) :: B ∧ objGet k A = none
        ∧ ∀ v, objSet k v es = A ++ (k, v) :: B := by
  intro es h
  induction es with
  | nil => simp [objGet] at h
  | cons e rest ih =>
      obtain ⟨k', v'⟩ := e
      by_cases hk : k' = k
      · subst hk
        rw [objGet, if_pos rfl] at h
        have hv : v' = w := by simpa using h
        subst hv
        refine ⟨[], rest, by simp, rfl, ?_⟩
        intro v
        rw [objSet, if_pos rfl]
        simp
      · rw [objGet, if_neg hk] at h
        obtain ⟨A, B, hes, hA, hset⟩ := ih h
        refine ⟨(k', v') :: A, B, by simp [hes], ?_, ?_⟩
        · rw [objGet, if_neg hk]
          exact hA
        · intro v
          rw [objSet, if_neg hk, hset v]
          simp

theorem jLeaves_append : ∀ (l1 l2 : JEntries),
    jLeaves (l1 ++ l2) = jLeaves l1 ++ jLeaves l2 := by
  intro l1 l2
  induction l1 with
  | nil => simp [jLeaves]
  | cons e rest ih =>
      obtain ⟨k, w⟩ := e
      cases w with
      | str s => simp [jLeaves, ih]
      | obj es2 => simp [jLeaves, ih]

theorem jLeaves_chain : ∀ (q : List (List Char)) (v : List Char), q ≠ [] →
    jLeaves (insertDotKeyGo v q []) = [(q, v)] := by
  intro q
  induction q with
  | nil => intro v h; exact absurd rfl h
  | cons k tail ih =>
      intro v _
      match tail with
      | [] => simp [insertDotKeyGo, objSet, jLeaves]
      | k2 :: rest =>
          rw [insertDotKeyGo]
          show jLeaves (objSet k (.obj (insertDotKeyGo v (k2 :: rest) [])) []) = _
          rw [objSet]
          simp [jLeaves, ih v (by simp)]

theorem jLeaves_paths_ne_nil : ∀ (es : JEntries) (p : List (List Char)),
    p ∈ (jLeaves es).map Prod.fst → p ≠ [] := by
  intro es
  induction es with
  | nil => simp [jLeaves]
  | cons e rest ih =>
      obtain ⟨k, w⟩ := e
      cases w with
      | str s =>
          intro p hp
          simp [jLeaves] at hp
          rcases hp with rfl | hp
          · simp
          · exact ih p (by simpa using hp)
      | obj es2 =>
          intro p hp
          simp [jLeaves] at hp
          rcases hp with ⟨q, _, rfl⟩ | hp
          · simp
          · exact ih p (by simpa using hp)

theorem jLeaves_mem_of_lookup {k : List Char} {es sub : JEntries}
    (h : objGet k es = some (.obj sub)) :
    ∀ q ∈ (jLeaves sub).map Prod.fst, (k :: q) ∈ (jLeaves es).map Prod.fst := by
  obtain ⟨A, B, hes, _, _⟩ := objGet_decomp h
  subst hes
  intro q hq
  obtain ⟨x, hx, rfl⟩ := List.mem_map.mp hq
  rw [jLeaves_append]
  simp only [List.map_append, List.mem_append]
  right
  rw [jLeaves]
  simp only [List.map_append, List.mem_append, List.map_map]
  left
  exact List.mem_map.mpr ⟨x, hx, rfl⟩

theorem jLeaves_str_mem {k : List Char} {es : JEntries} {s : List Char}
    (h : objGet k es = some (.str s)) : [k] ∈ (jLeaves es).map Prod.fst := by
  obtain ⟨A, B, hes, _, _⟩ := objGet_decomp h
  subst hes
  rw [jLeaves_append]
  simp only [List.map_append, List.mem_append]
  right
  rw [jLeaves]
  simp

/-- Inserting a dotted key whose segment path is prefix-unrelated to every
existing leaf path adds exactly one leaf, up to permutation. -/
theorem jLeaves_insertDotKeyGo :
    ∀ (q : List (List Char)) (es : JEntries) (v : List Char), q ≠ [] →
      (∀ p ∈ (jLeaves es).map Prod.fst, ¬ SegPre q p ∧ ¬ SegPre p q) →
      (jLeaves (insertDotKeyGo v q es)).Perm ((q, v) :: jLeaves es) := by
  intro q
  induction q with
  | nil => intro es v h; exact absurd rfl h
  | cons k tail ih =>
      intro es v _ hsep
      match tail with
      | [] =>
          show (jLeaves (objSet k (.str v) es)).Perm _
          cases hw : objGet k es with
          | none =>
              rw [objSet_fresh hw, jLeaves_append]
              rw [show jLeaves [(k, JVal.str v)] = [([k], v)] from by simp [jLeaves]]
              exact List.perm_append_singleton _ _
          | some w =>
              cases w with
              | str s =>
                  exact absurd ⟨[], by simp⟩ (hsep [k] (jLeaves_str_mem hw)).1
              | obj sub =>
                  have hsubnil : jLeaves sub = [] := by
                    cases hj : jLeaves sub with
                    | nil => rfl
                    | cons x xs =>
                        have hx : x.1 ∈ (jLeaves sub).map Prod.fst := by
                          rw [hj]; simp
                        have hmem := jLeaves_mem_of_lookup hw x.1 hx
                        exact absurd ⟨x.1, rfl⟩ (hsep (k :: x.1) hmem).1
                  obtain ⟨A, B, hes, _, hset⟩ := objGet_decomp hw
                  rw [hset (.str v), hes, jLeaves_append, jLeaves_append]
                  rw [show jLeaves ((k, JVal.str v) :: B) = ([k], v) :: jLeaves B from by
                    rw [jLeaves]]
                  rw [show jLeaves ((k, JVal.obj sub) :: B)
                      = (jLeaves sub).map (fun q => (k :: q.1, q.2)) ++ jLeaves B from by
                    rw [jLeaves]]
                  rw [hsubnil]
                  simp only [List.map_nil, List.nil_append]
                  exact List.perm_middle
      | k2 :: rest =>
          rw [insertDotKeyGo]
          cases hw : objGet k es with
          | none =>
              simp only
              rw [objSet_fresh hw, jLeaves_append]
              rw [show jLeaves [(k, JVal.obj (insertDotKeyGo v (k2 :: rest) []))]
                  = (jLeaves (insertDotKeyGo v (k2 :: rest) [])).map
                      (fun q => (k :: q.1, q.2)) ++ [] from by rw [jLeaves, jLeaves]]
              rw [jLeaves_chain (k2 :: rest) v (by simp)]
              simp only [List.map_cons, List.map_nil, List.append_nil]
              exact List.perm_append_singleton _ _
          | some w =>
              cases w with
              | str s =>
                  exact absurd ⟨k2 :: rest, rfl⟩
                    (hsep [k] (jLeaves_str_mem hw)).2
              | obj sub =>
                  simp only
                  have hsep' : ∀ p ∈ (jLeaves sub).map Prod.fst,
                      ¬ SegPre (k2 :: rest) p ∧ ¬ SegPre p (k2 :: rest) := by
                    intro p hp
                    have hm := jLeaves_mem_of_lookup hw p hp
                    obtain ⟨h1, h2⟩ := hsep (k :: p) hm
                    constructor
                    · intro hc
                      exact h1 (segPre_cons_iff.mpr ⟨rfl, hc⟩)
                    · intro hc
                      exact h2 (segPre_cons_iff.mpr ⟨rfl, hc⟩)
                  have hih := ih sub v (by simp) hsep'
                  obtain ⟨A, B, hes, _, hset⟩ := objGet_decomp hw
                  rw [hset (.obj (insertDotKeyGo v (k2 :: rest) sub)), hes,
                    jLeaves_append, jLeaves_append]
                  rw [show jLeaves ((k, JVal.obj (insertDotKeyGo v (k2 :: rest) sub)) :: B)
                      = (jLeaves (insertDotKeyGo v (k2 :: rest) sub)).map
                          (fun q => (k :: q.1, q.2)) ++ jLeaves B from by rw [jLeaves]]
                  rw [show jLeaves ((k, JVal.obj sub) :: B)
                      = (jLeaves sub).map (fun q => (k :: q.1, q.2)) ++ jLeaves B
                      from by rw [jLeaves]]
                  have hmap := hih.map (fun q => (k :: q.1, q.2))
                  simp only [List.map_cons] at hmap
                  refine (List.Perm.append_left _
                    (List.Perm.append_right _ hmap)).trans ?_
                  rw [List.cons_append]
                  exact List.perm_middle

/-- The leaves of the tree built by `flatToNested` are exactly the input
entries with split keys, up to permutation, provided the split keys are
pairwise prefix-unrelated. -/
theorem jLeaves_flatToNestedEntries :
    ∀ (flat : List (List Char × List Char)),
      (flat.map (fun e => splitDots e.1)).Pairwise
        (fun p q => ¬ SegPre p q ∧ ¬ SegPre q p) →
      (jLeaves (flatToNestedEntries flat)).Perm
        (flat.map (fun e => (splitDots e.1, e.2))) := by
  intro flat
  induction flat using List.reverseRecOn with
  | nil => intro _; simp [flatToNestedEntries, jLeaves]
  | append_singleton l x ih =>
      intro hpw
      have hstep : flatToNestedEntries (l ++ [x])
          = insertDotKeyGo x.2 (splitDots x.1) (flatToNestedEntries l) := by
        rw [flatToNestedEntries, List.foldl_append]
        rfl
      rw [hstep]
      simp only [List.map_append, List.map_cons, List.map_nil] at hpw
      obtain ⟨hl, _, hcross⟩ := List.pairwise_append.mp hpw
      have ihp := ih hl
      have hsep : ∀ p ∈ (jLeaves (flatToNestedEntries l)).map Prod.fst,
          ¬ SegPre (splitDots x.1) p ∧ ¬ SegPre p (splitDots x.1) := by
        intro p hp
        have hperm := ihp.map Prod.fst
        have hp' : p ∈ (l.map (fun e => (splitDots e.1, e.2))).map Prod.fst :=
          hperm.mem_iff.mp hp
        have hp'' : p ∈ l.map (fun e => splitDots e.1) := by
          simpa [List.map_map] using hp'
        obtain ⟨h1, h2⟩ := hcross p hp'' (splitDots x.1) (List.mem_cons_self _ _)
        exact ⟨h2, h1⟩
      have hins := jLeaves_insertDotKeyGo (splitDots x.1) _ x.2 (splitDots_ne_nil _) hsep
      refine hins.trans ?_
      refine (List.Perm.cons _ ihp).trans ?_
      simp only [List.map_append, List.map_cons, List.map_nil]
      exact (List.perm_append_singleton _ _).symm

theorem objSet_keys_sub {k : List Char} {v : α} :
    ∀ (es : List (List Char × α)) (kk : List Char),
      kk ∈ (objSet k v es).map Prod.fst → kk = k ∨ kk ∈ es.map Prod.fst := by
  intro es
  induction es with
  | nil =>
      intro kk h
      rw [objSet] at h
      rcases List.mem_map.mp h with ⟨e, he, rfl⟩
      rw [List.mem_singleton.mp he]
      exact Or.inl rfl
  | cons e rest ih =>
      obtain ⟨k', v'⟩ := e
      intro kk h
      by_cases hk : k' = k
      · rw [objSet, if_pos hk] at h
        rw [List.map_cons, List.mem_cons] at h
        rcases h with h | h
        · exact Or.inl h
        · exact Or.inr (by rw [List.map_cons, List.mem_cons]; exact Or.inr h)
      · rw [objSet, if_neg hk] at h
        rw [List.map_cons, List.mem_cons] at h
        rcases h with h | h
        · exact Or.inr (by rw [List.map_cons, List.mem_cons]; exact Or.inl h)
        · rcases ih kk h with h' | h'
          · exact Or.inl h'
          · exact Or.inr (by rw [List.map_cons, List.mem_cons]; exact Or.inr h')

theorem insertDotKeyGo_keys :
    ∀ (k : List Char) (t : List (List Char)) (es : JEntries) (v : List Char)
      (kk : List Char),
      kk ∈ (insertDotKeyGo v (k :: t) es).map Prod.fst →
      kk = k ∨ kk ∈ es.map Prod.fst := by
  intro k t es v kk h
  match t with
  | [] => exact objSet_keys_sub es kk h
  | k2 :: rest =>
      rw [insertDotKeyGo] at h
      exact objSet_keys_sub es kk h

theorem flatToNestedEntries_keys :
    ∀ (flat : List (List Char × List Char)) (kk : List Char),
      kk ∈ (flatToNestedEntries flat).map Prod.fst →
      ∃ e ∈ flat, (splitDots e.1).head? = some kk := by
  intro flat
  induction flat using List.reverseRecOn with
  | nil => intro kk h; simp [flatToNestedEntries] at h
  | append_singleton l x ih =>
      intro kk h
      have hstep : flatToNestedEntries (l ++ [x])
          = insertDotKeyGo x.2 (splitDots x.1) (flatToNestedEntries l) := by
        rw [flatToNestedEntries, List.foldl_append]
        rfl
      rw [hstep] at h
      rcases hq : splitDots x.1 with _ | ⟨k, t⟩
      · exact absurd hq (splitDots_ne_nil x.1)
      · rw [hq] at h
        rcases insertDotKeyGo_keys k t _ x.2 kk h with h' | h'
        · exact ⟨x, List.mem_append_right _ (List.mem_cons_self _ _), by
            rw [hq, h']; rfl⟩
        · obtain ⟨e, he, hh⟩ := ih kk h'
          exact ⟨e, List.mem_append_left _ he, hh⟩

/-- The keys produced by `nestedToFlat` under prefix `pre` are the joins of
the leaf segment paths, provided no root-level key is the empty string when
`pre` is empty. -/
theorem nestedToFlatSpec_eq_extKey :
    ∀ (es : JEntries) (pre : List Char),
      (pre = [] → ∀ e ∈ es, e.1 ≠ []) →
      nestedToFlatSpec es pre = (jLeaves es).map (fun q => (extKey pre q.1, q.2))
  | [], pre, _ => by
      rw [nestedToFlatSpec, jLeaves]
      rfl
  | (k, .str s) :: rest, pre, hroot => by
      rw [nestedToFlatSpec, jLeaves,
        nestedToFlatSpec_eq_extKey rest pre
          (fun hp e he => hroot hp e (List.mem_cons_of_mem _ he))]
      simp only [List.map_cons]
      have hext : extKey pre [k] = mkFullKey pre k := by
        have hjk : joinSegs [k] = k := by rw [joinSegs]
        rw [extKey, mkFullKey, hjk]
      rw [hext]
  | (k, .obj es2) :: rest, pre, hroot => by
      have hpre' : mkFullKey pre k ≠ [] := by
        rw [mkFullKey]
        by_cases hp : pre = []
        · rw [if_pos hp]
          exact hroot hp (k, .obj es2) (List.mem_cons_self _ _)
        · rw [if_neg hp]
          simp
      rw [nestedToFlatSpec, jLeaves,
        nestedToFlatSpec_eq_extKey es2 (mkFullKey pre k) (fun hp => absurd hp hpre'),
        nestedToFlatSpec_eq_extKey rest pre
          (fun hp e he => hroot hp e (List.mem_cons_of_mem _ he))]
      rw [List.map_append, List.map_map]
      congr 1
      apply List.map_congr_left
      intro q hq
      have hqne : q.1 ≠ [] := jLeaves_paths_ne_nil es2 q.1 (List.mem_map_of_mem _ hq)
      show (extKey (mkFullKey pre k) q.1, q.2) = (extKey pre (k :: q.1), q.2)
      by_cases hp : pre = []
      · have hk : k ≠ [] := hroot hp (k, .obj es2) (List.mem_cons_self _ _)
        subst hp
        simp [extKey, mkFullKey, hk, joinSegs_cons hqne]
      · have hne : pre ++ '.' :: k ≠ [] := by simp
        simp [extKey, mkFullKey, hp, hne, joinSegs_cons hqne]
termination_by es _ _ => sizeOf es

theorem objGet_eq_none_of_not_mem {k : List Char} :
    ∀ {es : List (List Char × α)}, k ∉ es.map Prod.fst → objGet k es = none := by
  intro es h
  induction es with
  | nil => rfl
  | cons e rest ih =>
      obtain ⟨k', v'⟩ := e
      rw [List.map_cons, List.mem_cons] at h
      push_neg at h
      rw [objGet, if_neg (fun hk => h.1 hk.symm)]
      exact ih h.2

/-- The accumulator loop of `nestedToFlat` appends the specification entries
when their keys are mutually distinct and fresh for the accumulator. -/
theorem nestedToFlatGo_eq_spec :
    ∀ (es : JEntries) (pre : List Char) (flat : List (List Char × List Char)),
      ((nestedToFlatSpec es pre).map Prod.fst).Nodup →
      (∀ kk ∈ (nestedToFlatSpec es pre).map Prod.fst, objGet kk flat = none) →
      nestedToFlatGo pre es flat = flat ++ nestedToFlatSpec es pre
  | [], pre, flat, _, _ => by
      rw [nestedToFlatGo, nestedToFlatSpec]
      simp
  | (k, .str s) :: rest, pre, flat, hnd, hfresh => by
      rw [nestedToFlatSpec] at hnd hfresh
      simp only [List.map_cons, List.nodup_cons] at hnd
      rw [nestedToFlatGo]
      have hfull : objGet (mkFullKey pre k) flat = none :=
        hfresh _ (by rw [List.map_cons]; exact List.mem_cons_self _ _)
      rw [objSet_fresh hfull]
      rw [nestedToFlatGo_eq_spec rest pre (flat ++ [(mkFullKey pre k, s)]) hnd.2 ?_]
      · rw [nestedToFlatSpec]
        simp
      · intro kk hkk
        rw [objGet_append_none (hfresh kk (by
          rw [List.map_cons]
          exact List.mem_cons_of_mem _ hkk))]
        have hne : mkFullKey pre k ≠ kk := fun he => hnd.1 (he ▸ hkk)
        rw [objGet, if_neg hne]
        rfl
  | (k, .obj es2) :: rest, pre, flat, hnd, hfresh => by
      rw [nestedToFlatSpec] at hnd hfresh
      rw [List.map_append] at hnd hfresh
      obtain ⟨nd1, nd2, hdisj⟩ := List.nodup_append.mp hnd
      rw [nestedToFlatGo]
      have hinner : nestedToFlat es2 (mkFullKey pre k)
          = nestedToFlatSpec es2 (mkFullKey pre k) := by
        rw [nestedToFlat,
          nestedToFlatGo_eq_spec es2 (mkFullKey pre k) [] nd1 (fun kk _ => rfl)]
        rfl
      rw [hinner]
      have hassign : assignAll flat (nestedToFlatSpec es2 (mkFullKey pre k))
          = flat ++ nestedToFlatSpec es2 (mkFullKey pre k) := by
        show flatInsertAll flat (nestedToFlatSpec es2 (mkFullKey pre k)) = _
        exact flatInsertAll_fresh _ flat
          (fun e he => hfresh e.1 (List.mem_append_left _ (List.mem_map_of_mem _ he)))
          nd1
      rw [hassign]
      rw [nestedToFlatGo_eq_spec rest pre
        (flat ++ nestedToFlatSpec es2 (mkFullKey pre k)) nd2 ?_]
      · rw [nestedToFlatSpec, List.append_assoc]
      · intro kk hkk
        rw [objGet_append_none (hfresh kk (List.mem_append_right _ hkk))]
        exact objGet_eq_none_of_not_mem (fun hm => hdisj hm hkk)
termination_by es _ _ => sizeOf es

-- ── C4 ──

/-- C4 counterexample: the flat map `{".a": "v"}` has no key-prefix
collision, yet the round trip is not the identity: `flatToNested` files the
value under the empty first segment, and `nestedToFlat` rebuilds the key as
`"a"` because the empty prefix is falsy in `prefix ? prefix + "." + key :
key`, so the leading dot is lost. -/
theorem c4_roundTrip_counterexample :
    nestedToFlat (flatToNestedEntries [(".a".toList, "v".toList)]) []
      = [("a".toList, "v".toList)]
    ∧ ¬ (nestedToFlat (flatToNestedEntries [(".a".toList, "v".toList)]) []).Perm
        [(".a".toList, "v".toList)] := by
  have hE : flatToNestedEntries [(".a".toList, "v".toList)]
      = [([], JVal.obj [("a".toList, JVal.str "v".toList)])] := rfl
  have hval : nestedToFlat (flatToNestedEntries [(".a".toList, "v".toList)]) []
      = [("a".toList, "v".toList)] := by
    rw [hE]
    simp [nestedToFlat, nestedToFlatGo, mkFullKey, assignAll, objSet]
  refine ⟨hval, ?_⟩
  rw [hval]
  intro hperm
  have := List.perm_singleton.mp hperm
  simp at this

/-- C4 amended: for a flat map with unique keys, no dotted-prefix collision
between distinct keys, and no key that is empty or begins with a dot (its
first dot-segment is nonempty), the round trip is the identity:
`nestedToFlat(flatToNested(flat))` holds exactly the entries of `flat`, up to
enumeration order. Keys beginning with a dot are the one exception the
counterexample exhibits. -/
theorem c4_roundTrip (flat : List (List Char × List Char))
    (hnd : (flat.map Prod.fst).Nodup)
    (hpre : ∀ e ∈ flat, ∀ f ∈ flat, e.1 ≠ f.1 →
        ¬ SegPre (splitDots e.1) (splitDots f.1))
    (hdot : ∀ e ∈ flat, (splitDots e.1).head? ≠ some []) :
    (nestedToFlat (flatToNestedEntries flat) []).Perm flat := by
  have hpw : (flat.map (fun e => splitDots e.1)).Pairwise
      (fun p q => ¬ SegPre p q ∧ ¬ SegPre q p) := by
    rw [List.pairwise_map]
    have hne : flat.Pairwise (fun a b => a.1 ≠ b.1) := List.pairwise_map.mp hnd
    refine hne.imp_of_mem ?_
    intro a b ha hb hab
    exact ⟨hpre a ha b hb hab, hpre b hb a ha (fun h => hab h.symm)⟩
  have hleaves := jLeaves_flatToNestedEntries flat hpw
  have hroot : ∀ e ∈ flatToNestedEntries flat, e.1 ≠ [] := by
    intro e he hnil
    obtain ⟨x, hx, hh⟩ := flatToNestedEntries_keys flat e.1
      (List.mem_map_of_mem _ he)
    rw [hnil] at hh
    exact hdot x hx hh
  have hspec := nestedToFlatSpec_eq_extKey (flatToNestedEntries flat) []
    (fun _ => hroot)
  have hext : ∀ p : List (List Char), extKey [] p = joinSegs p := by
    intro p
    rw [extKey, if_pos rfl]
  have hkeysperm : ((nestedToFlatSpec (flatToNestedEntries flat) []).map Prod.fst).Perm
      (flat.map Prod.fst) := by
    rw [hspec, List.map_map]
    have h1 := hleaves.map (fun q : List (List Char) × List Char => extKey [] q.1)
    refine List.Perm.trans (by exact h1) ?_
    rw [List.map_map]
    have : flat.map ((fun q : List (List Char) × List Char => extKey [] q.1)
        ∘ (fun e : List Char × List Char => (splitDots e.1, e.2))) = flat.map Prod.fst := by
      apply List.map_congr_left
      intro e _
      show extKey [] (splitDots e.1) = e.1
      rw [hext, joinSegs_splitDots]
    rw [this]
  have hnd2 : ((nestedToFlatSpec (flatToNestedEntries flat) []).map Prod.fst).Nodup :=
    hkeysperm.nodup_iff.mpr hnd
  have hbridge : nestedToFlat (flatToNestedEntries flat) []
      = nestedToFlatSpec (flatToNestedEntries flat) [] := by
    rw [nestedToFlat, nestedToFlatGo_eq_spec _ [] [] hnd2 (fun kk _ => rfl)]
    rfl
  rw [hbridge, hspec]
  refine (hleaves.map (fun q : List (List Char) × List Char => (extKey [] q.1, q.2))).trans ?_
  rw [List.map_map]
  have hmapeq : flat.map ((fun q : List (List Char) × List Char => (extKey [] q.1, q.2))
      ∘ (fun e : List Char × List Char => (splitDots e.1, e.2))) = flat := by
    have : flat.map ((fun q : List (List Char) × List Char => (extKey [] q.1, q.2))
        ∘ (fun e : List Char × List Char => (splitDots e.1, e.2))) = flat.map id := by
      apply List.map_congr_left
      intro e _
      show (extKey [] (splitDots e.1), e.2) = e
      rw [hext, joinSegs_splitDots]
    rw [this, List.map_id]
  rw [hmapeq]

/-- C4 witness: the flat map `{"a.b": "1", "c": "2"}` has unique,
prefix-free, dot-clean keys and round-trips exactly. -/
theorem c4_roundTrip_witness :
    (nestedToFlat (flatToNestedEntries
        [("a.b".toList, "1".toList), ("c".toList, "2".toList)]) []).Perm
      [("a.b".toList, "1".toList), ("c".toList, "2".toList)] :=
  c4_roundTrip [("a.b".toList, "1".toList), ("c".toList, "2".toList)]
    (by decide) (by decide) (by decide)

end WhalebaseTranslations
